import Mathlib

/-!
Verification of the LevelDB-backed segment tree in `minemeld/ft/st.py`.

The development shallowly embeds the module: keys are byte lists built by
`struct.pack`-style big-endian encoders, the LevelDB instance is an
association list sorted strictly by byte-lexicographic key order (the order
in which LevelDB iterates), and the `ST` operations (`_split_interval`,
`put`, `delete`, `cover`, `query_endpoints`) are translated directly from
the Python source.  `_split_interval` recurses without a structural
termination measure in Python, so it is embedded with an explicit fuel
parameter; `none` models non-termination.
-/

/-- Byte-lexicographic strict comparison of byte strings, the key order
used by LevelDB iterators.  A proper prefix sorts before its extensions. -/
def byteLtB : List Nat → List Nat → Bool
  | _, [] => false
  | [], _ :: _ => true
  | a :: as, b :: bs => decide (a < b) || (decide (a = b) && byteLtB as bs)

theorem byteLtB_nil_nil : byteLtB [] [] = false := rfl

theorem byteLtB_cons_iff (a b : Nat) (as bs : List Nat) :
    byteLtB (a :: as) (b :: bs) = true ↔ a < b ∨ (a = b ∧ byteLtB as bs = true) := by
  simp [byteLtB]

theorem byteLtB_irrefl : ∀ x : List Nat, byteLtB x x = false := by
  intro x
  induction x with
  | nil => rfl
  | cons a as ih => simp [byteLtB, ih]

theorem byteLtB_trans : ∀ x y z : List Nat,
    byteLtB x y = true → byteLtB y z = true → byteLtB x z = true := by
  intro x
  induction x with
  | nil =>
    intro y z hxy hyz
    cases y with
    | nil => simp [byteLtB] at hxy
    | cons b bs =>
      cases z with
      | nil => simp [byteLtB] at hyz
      | cons c cs => simp [byteLtB]
  | cons a as ih =>
    intro y z hxy hyz
    cases y with
    | nil => simp [byteLtB] at hxy
    | cons b bs =>
      cases z with
      | nil => simp [byteLtB] at hyz
      | cons c cs =>
        rw [byteLtB_cons_iff] at hxy hyz ⊢
        rcases hxy with h1 | ⟨h1e, h1r⟩
        · rcases hyz with h2 | ⟨h2e, h2r⟩
          · exact Or.inl (Nat.lt_trans h1 h2)
          · exact Or.inl (h2e ▸ h1)
        · rcases hyz with h2 | ⟨h2e, h2r⟩
          · exact Or.inl (h1e ▸ h2)
          · exact Or.inr ⟨h1e.trans h2e, ih bs cs h1r h2r⟩

theorem byteLtB_asymm : ∀ x y : List Nat,
    byteLtB x y = true → byteLtB y x = false := by
  intro x y hxy
  cases h : byteLtB y x with
  | false => rfl
  | true =>
    have := byteLtB_trans x y x hxy h
    rw [byteLtB_irrefl] at this
    exact absurd this (by simp)

theorem byteLtB_total : ∀ x y : List Nat,
    byteLtB x y = true ∨ x = y ∨ byteLtB y x = true := by
  intro x
  induction x with
  | nil =>
    intro y
    cases y with
    | nil => exact Or.inr (Or.inl rfl)
    | cons b bs => exact Or.inl (by simp [byteLtB])
  | cons a as ih =>
    intro y
    cases y with
    | nil => exact Or.inr (Or.inr (by simp [byteLtB]))
    | cons b bs =>
      rcases Nat.lt_trichotomy a b with h | h | h
      · exact Or.inl ((byteLtB_cons_iff a b as bs).mpr (Or.inl h))
      · rcases ih bs with h2 | h2 | h2
        · exact Or.inl ((byteLtB_cons_iff a b as bs).mpr (Or.inr ⟨h, h2⟩))
        · exact Or.inr (Or.inl (by rw [h, h2]))
        · exact Or.inr (Or.inr ((byteLtB_cons_iff b a bs as).mpr (Or.inr ⟨h.symm, h2⟩)))
      · exact Or.inr (Or.inr ((byteLtB_cons_iff b a bs as).mpr (Or.inl h)))

theorem byteLtB_append_same : ∀ (x u v : List Nat),
    byteLtB (x ++ u) (x ++ v) = byteLtB u v := by
  intro x
  induction x with
  | nil => intro u v; rfl
  | cons a as ih =>
    intro u v
    show byteLtB (a :: (as ++ u)) (a :: (as ++ v)) = byteLtB u v
    cases h : byteLtB u v with
    | true =>
      rw [(byteLtB_cons_iff a a (as ++ u) (as ++ v)).mpr
        (Or.inr ⟨rfl, (ih u v).trans h⟩)]
    | false =>
      cases h2 : byteLtB (a :: (as ++ u)) (a :: (as ++ v)) with
      | false => rfl
      | true =>
        rw [byteLtB_cons_iff] at h2
        rcases h2 with h2 | ⟨_, h2⟩
        · exact absurd h2 (Nat.lt_irrefl a)
        · rw [ih u v] at h2; rw [h2] at h; exact absurd h (by simp)

theorem byteLtB_self_append (x u : List Nat) (hu : u ≠ []) :
    byteLtB x (x ++ u) = true := by
  have h := byteLtB_append_same x [] u
  rw [List.append_nil] at h
  rw [h]
  cases u with
  | nil => exact absurd rfl hu
  | cons b bs => rfl

theorem byteLtB_append_iff : ∀ (x y u v : List Nat), x.length = y.length →
    (byteLtB (x ++ u) (y ++ v) = true ↔
      byteLtB x y = true ∨ (x = y ∧ byteLtB u v = true)) := by
  intro x
  induction x with
  | nil =>
    intro y u v hlen
    cases y with
    | nil => simp [byteLtB_nil_nil]
    | cons b bs => simp at hlen
  | cons a as ih =>
    intro y u v hlen
    cases y with
    | nil => simp at hlen
    | cons b bs =>
      simp only [List.length_cons, Nat.succ.injEq] at hlen
      show byteLtB (a :: (as ++ u)) (b :: (bs ++ v)) = true ↔ _
      rw [byteLtB_cons_iff, byteLtB_cons_iff, ih bs u v hlen]
      constructor
      · rintro (h | ⟨he, h | ⟨he2, h⟩⟩)
        · exact Or.inl (Or.inl h)
        · exact Or.inl (Or.inr ⟨he, h⟩)
        · exact Or.inr ⟨by rw [he, he2], h⟩
      · rintro ((h | ⟨he, h⟩) | ⟨he, h⟩)
        · exact Or.inl h
        · exact Or.inr ⟨he, Or.inl h⟩
        · rcases List.cons.injEq a as b bs ▸ he with ⟨h1, h2⟩
          · exact Or.inr ⟨h1, Or.inr ⟨h2, h⟩⟩

theorem byteLtB_append_ne (x y u v : List Nat) (hlen : x.length = y.length)
    (hne : x ≠ y) : byteLtB (x ++ u) (y ++ v) = byteLtB x y := by
  cases h : byteLtB x y with
  | true => exact (byteLtB_append_iff x y u v hlen).mpr (Or.inl h)
  | false =>
    cases h2 : byteLtB (x ++ u) (y ++ v) with
    | false => rfl
    | true =>
      rcases (byteLtB_append_iff x y u v hlen).mp h2 with h3 | ⟨h3, _⟩
      · rw [h3] at h; exact absurd h (by simp)
      · exact absurd h3 hne

theorem byteLtB_single (a b : Nat) : byteLtB [a] [b] = true ↔ a < b := by
  rw [byteLtB_cons_iff]
  simp [byteLtB_nil_nil]

/-- Fixed-width big-endian encoding of an unsigned integer, as produced by
`struct.pack` format characters `B` (width 1) and `Q` (width 8); the most
significant byte comes first, so byte order matches numeric order. -/
def beBytes : Nat → Nat → List Nat
  | 0, _ => []
  | w + 1, n => beBytes w (n / 256) ++ [n % 256]

theorem beBytes_length : ∀ (w n : Nat), (beBytes w n).length = w := by
  intro w
  induction w with
  | zero => intro n; rfl
  | succ w ih => intro n; simp [beBytes, ih]

theorem beBytes_inj : ∀ (w n m : Nat), n < 256 ^ w → m < 256 ^ w →
    (beBytes w n = beBytes w m ↔ n = m) := by
  intro w
  induction w with
  | zero =>
    intro n m hn hm
    simp [Nat.pow_zero, Nat.lt_one_iff] at hn hm
    simp [hn, hm]
  | succ w ih =>
    intro n m hn hm
    have hn2 : n / 256 < 256 ^ w := by
      rw [Nat.div_lt_iff_lt_mul (by norm_num)]
      calc n < 256 ^ (w + 1) := hn
        _ = 256 ^ w * 256 := by ring
    have hm2 : m / 256 < 256 ^ w := by
      rw [Nat.div_lt_iff_lt_mul (by norm_num)]
      calc m < 256 ^ (w + 1) := hm
        _ = 256 ^ w * 256 := by ring
    constructor
    · intro h
      simp only [beBytes] at h
      have hlen : (beBytes w (n / 256)).length = (beBytes w (m / 256)).length := by
        rw [beBytes_length, beBytes_length]
      rcases List.append_inj h hlen with ⟨h1, h2⟩
      have hq := (ih (n / 256) (m / 256) hn2 hm2).mp h1
      have hr : n % 256 = m % 256 := by simpa using h2
      have e1 := Nat.div_add_mod n 256
      have e2 := Nat.div_add_mod m 256
      omega
    · intro h; rw [h]

theorem beBytes_lt : ∀ (w n m : Nat), n < 256 ^ w → m < 256 ^ w →
    (byteLtB (beBytes w n) (beBytes w m) = true ↔ n < m) := by
  intro w
  induction w with
  | zero =>
    intro n m hn hm
    simp [Nat.pow_zero, Nat.lt_one_iff] at hn hm
    simp [hn, hm, beBytes, byteLtB_nil_nil]
  | succ w ih =>
    intro n m hn hm
    have hn2 : n / 256 < 256 ^ w := by
      rw [Nat.div_lt_iff_lt_mul (by norm_num)]
      calc n < 256 ^ (w + 1) := hn
        _ = 256 ^ w * 256 := by ring
    have hm2 : m / 256 < 256 ^ w := by
      rw [Nat.div_lt_iff_lt_mul (by norm_num)]
      calc m < 256 ^ (w + 1) := hm
        _ = 256 ^ w * 256 := by ring
    simp only [beBytes]
    rw [byteLtB_append_iff _ _ _ _ (by rw [beBytes_length, beBytes_length])]
    rw [ih (n / 256) (m / 256) hn2 hm2, beBytes_inj w (n / 256) (m / 256) hn2 hm2,
      byteLtB_single]
    have e1 := Nat.div_add_mod n 256
    have e2 := Nat.div_add_mod m 256
    have r1 : n % 256 < 256 := Nat.mod_lt _ (by norm_num)
    have r2 : m % 256 < 256 := Nat.mod_lt _ (by norm_num)
    omega

/-- Big-endian decoding, as done by `struct.unpack` on `Q` fields. -/
def unpackBE (bs : List Nat) : Nat := bs.foldl (fun acc b => acc * 256 + b) 0

theorem unpackBE_beBytes : ∀ (w n : Nat), n < 256 ^ w →
    unpackBE (beBytes w n) = n := by
  have gen : ∀ (w n a : Nat), n < 256 ^ w →
      (beBytes w n).foldl (fun acc b => acc * 256 + b) a = a * 256 ^ w + n := by
    intro w
    induction w with
    | zero =>
      intro n a hn
      simp [Nat.pow_zero, Nat.lt_one_iff] at hn
      simp [beBytes, hn]
    | succ w ih =>
      intro n a hn
      have hn2 : n / 256 < 256 ^ w := by
        rw [Nat.div_lt_iff_lt_mul (by norm_num)]
        calc n < 256 ^ (w + 1) := hn
          _ = 256 ^ w * 256 := by ring
      simp only [beBytes, List.foldl_append, List.foldl_cons, List.foldl_nil]
      rw [ih (n / 256) a hn2]
      have e1 := Nat.div_add_mod n 256
      have : 256 ^ (w + 1) = 256 ^ w * 256 := by ring
      rw [this]
      ring_nf
      omega
  intro w n hn
  have := gen w n 0 hn
  simpa [unpackBE] using this

/-- Maximum valid level, `MAX_LEVEL = 0xFE` in the source. -/
def MAX_LEVEL : Nat := 0xFE

/-- Boundary-marker kind for an interval start, `TYPE_START = 0x00`. -/
def TYPE_START : Nat := 0x00

/-- Boundary-marker kind for an interval end, `TYPE_END = 0x1`. -/
def TYPE_END : Nat := 0x1

/-- `ST.max_endpoint = 1 << epsize`. -/
def maxEndpoint (epsize : Nat) : Nat := 2 ^ epsize

/-- Segment-key prefix `struct.pack(">BQQ", 1, start, end)` produced by
`ST._segment_key` when neither `level` nor `uuid_` is supplied. -/
def segKeyP (l u : Nat) : List Nat := 1 :: (beBytes 8 l ++ beBytes 8 u)

/-- Segment key with level but no owner, as built for scan stop bounds. -/
def segKeyL (l u lvl : Nat) : List Nat := segKeyP l u ++ [lvl]

/-- Full segment key `(1, lower, upper, level, owner)`. -/
def segKey (l u lvl : Nat) (o : List Nat) : List Nat := segKeyL l u lvl ++ o

/-- Endpoint-key prefix `struct.pack(">BQ", 2, endpoint)` produced by
`ST._endpoint_key` when no `level` is supplied. -/
def epKeyP (v : Nat) : List Nat := 2 :: beBytes 8 v

/-- Endpoint key with level but no kind/owner, as built for scan stop bounds. -/
def epKeyL (v lvl : Nat) : List Nat := epKeyP v ++ [lvl]

/-- Full endpoint key `(2, endpoint, level, type, owner)`. -/
def epKey (v lvl kind : Nat) (o : List Nat) : List Nat := epKeyL v lvl ++ kind :: o

theorem segKeyP_length (l u : Nat) : (segKeyP l u).length = 17 := by
  simp [segKeyP, beBytes_length]

theorem segKeyL_length (l u lvl : Nat) : (segKeyL l u lvl).length = 18 := by
  simp [segKeyL, segKeyP_length]

theorem epKeyP_length (v : Nat) : (epKeyP v).length = 9 := by
  simp [epKeyP, beBytes_length]

theorem epKeyL_length (v lvl : Nat) : (epKeyL v lvl).length = 10 := by
  simp [epKeyL, epKeyP_length]

theorem segKey_length (l u lvl : Nat) (o : List Nat) :
    (segKey l u lvl o).length = 18 + o.length := by
  simp [segKey, segKeyL_length]

theorem epKey_length (v lvl kind : Nat) (o : List Nat) :
    (epKey v lvl kind o).length = 11 + o.length := by
  simp [epKey, epKeyL_length]
  omega

theorem segKey_drop18 (l u lvl : Nat) (o : List Nat) :
    (segKey l u lvl o).drop 18 = o := by
  have h : (segKeyL l u lvl).length = 18 := segKeyL_length l u lvl
  calc (segKey l u lvl o).drop 18 = (segKeyL l u lvl ++ o).drop (segKeyL l u lvl).length := by
        rw [h]; rfl
    _ = o := List.drop_left _ _

theorem segKey_getD17 (l u lvl : Nat) (o : List Nat) :
    (segKey l u lvl o).getD 17 0 = lvl := by
  have h : segKey l u lvl o = segKeyP l u ++ (lvl :: o) := by
    simp [segKey, segKeyL]
  have h2 : (segKeyP l u ++ (lvl :: o)).get? 17 = (lvl :: o).get? (17 - (segKeyP l u).length) :=
    List.get?_append_right (by rw [segKeyP_length])
  rw [h, List.getD, h2, segKeyP_length]
  rfl

theorem epKey_drop11 (v lvl kind : Nat) (o : List Nat) :
    (epKey v lvl kind o).drop 11 = o := by
  have h : epKey v lvl kind o = (epKeyL v lvl ++ [kind]) ++ o := by
    simp [epKey]
  have hl : (epKeyL v lvl ++ [kind]).length = 11 := by
    simp [epKeyL_length]
  rw [h]
  calc ((epKeyL v lvl ++ [kind]) ++ o).drop 11
      = ((epKeyL v lvl ++ [kind]) ++ o).drop (epKeyL v lvl ++ [kind]).length := by rw [hl]
    _ = o := List.drop_left _ _

theorem epKey_getD9 (v lvl kind : Nat) (o : List Nat) :
    (epKey v lvl kind o).getD 9 0 = lvl := by
  have h : epKey v lvl kind o = epKeyP v ++ (lvl :: kind :: o) := by
    simp [epKey, epKeyL]
  have h2 : (epKeyP v ++ (lvl :: kind :: o)).get? 9 = (lvl :: kind :: o).get? (9 - (epKeyP v).length) :=
    List.get?_append_right (by rw [epKeyP_length])
  rw [h, List.getD, h2, epKeyP_length]
  rfl

theorem epKey_getD10 (v lvl kind : Nat) (o : List Nat) :
    (epKey v lvl kind o).getD 10 0 = kind := by
  have h : epKey v lvl kind o = epKeyP v ++ (lvl :: kind :: o) := by
    simp [epKey, epKeyL]
  have h2 : (epKeyP v ++ (lvl :: kind :: o)).get? 10 = (lvl :: kind :: o).get? (10 - (epKeyP v).length) :=
    List.get?_append_right (by rw [epKeyP_length]; omega)
  rw [h, List.getD, h2, epKeyP_length]
  rfl

theorem epKey_value (v lvl kind : Nat) (o : List Nat) (hv : v < 256 ^ 8) :
    unpackBE (((epKey v lvl kind o).drop 1).take 8) = v := by
  have h : (epKey v lvl kind o).drop 1 = beBytes 8 v ++ (lvl :: kind :: o) := by
    simp [epKey, epKeyL, epKeyP]
  rw [h, List.take_left' (beBytes_length 8 v)]
  exact unpackBE_beBytes 8 v hv

/-- Canonical nodes of the implicit binary tree: `CanonIn r n` holds when
node `n` arises from `r` by repeated midpoint bisection, descending into
`[lower, mid]` or `[mid+1, upper]` with `mid = (lower+upper)/2`. -/
inductive CanonIn : Nat × Nat → Nat × Nat → Prop where
  | refl (p : Nat × Nat) : CanonIn p p
  | left {lo up : Nat} {n : Nat × Nat} :
      lo < up → CanonIn (lo, (lo + up) / 2) n → CanonIn (lo, up) n
  | right {lo up : Nat} {n : Nat × Nat} :
      lo < up → CanonIn ((lo + up) / 2 + 1, up) n → CanonIn (lo, up) n

/-- A canonical node of the tree over `[0, max_endpoint]`, the tree used by
`put`, `delete` and `cover`. -/
def Canon (M : Nat) (p : Nat × Nat) : Prop := CanonIn (0, M) p

theorem canonIn_bounds : ∀ (r n : Nat × Nat), CanonIn r n → r.1 ≤ r.2 →
    r.1 ≤ n.1 ∧ n.1 ≤ n.2 ∧ n.2 ≤ r.2 := by
  intro r n h
  induction h with
  | refl p => intro h2; exact ⟨le_refl _, h2, le_refl _⟩
  | left hlt hc ih =>
    rename_i lo up n
    intro _
    have := ih (by omega)
    simp only at this ⊢
    omega
  | right hlt hc ih =>
    rename_i lo up n
    intro _
    have := ih (by omega)
    simp only at this ⊢
    omega

theorem canonIn_trans : ∀ (a b c : Nat × Nat), CanonIn a b → CanonIn b c →
    CanonIn a c := by
  intro a b c hab
  induction hab with
  | refl p => intro h; exact h
  | left hlt hc ih => intro h; exact CanonIn.left hlt (ih h)
  | right hlt hc ih => intro h; exact CanonIn.right hlt (ih h)

theorem canonIn_leaf : ∀ (l : Nat) (n : Nat × Nat), CanonIn (l, l) n → n = (l, l) := by
  intro l n h
  generalize hr : (l, l) = r at h
  induction h with
  | refl p => rw [← hr]
  | left hlt hc ih =>
    rename_i lo up n
    rcases Prod.mk.injEq lo up l l ▸ hr.symm with ⟨h1, h2⟩
    omega
  | right hlt hc ih =>
    rename_i lo up n
    rcases Prod.mk.injEq lo up l l ▸ hr.symm with ⟨h1, h2⟩
    omega

/-- Fuel-indexed embedding of `ST._split_interval(start, end, lower, upper)`.
The Python function recurses unboundedly; `none` models a computation that
does not finish within the given fuel (every genuinely terminating call is
reached by a sufficiently large fuel, see `splitF_spec` and `splitF_mono`). -/
def splitF : Nat → Nat → Nat → Nat → Nat → Option (List (Nat × Nat))
  | 0, _, _, _, _ => none
  | f + 1, s, e, lo, up =>
    if s ≤ lo ∧ up ≤ e then some [(lo, up)]
    else
      match (if s ≤ (lo + up) / 2 then splitF f s e lo ((lo + up) / 2) else some []),
            (if (lo + up) / 2 < e then splitF f s e ((lo + up) / 2 + 1) up else some []) with
      | some ls, some rs => some (ls ++ rs)
      | _, _ => none

/-- Main specification of the canonical decomposition: given the invariants
maintained by the recursion (`s ≤ up`, `lo ≤ e`, `lo ≤ up`) and enough
fuel, the call returns canonical sub-nodes of `[lo, up]`, pairwise disjoint
and in increasing order, whose union is exactly `[max s lo, min e up]`. -/
theorem splitF_spec : ∀ (f s e lo up : Nat), s ≤ up → lo ≤ e → lo ≤ up →
    up - lo < f →
    ∃ L, splitF f s e lo up = some L ∧
      (∀ p ∈ L, s ≤ p.1 ∧ p.2 ≤ e ∧ lo ≤ p.1 ∧ p.1 ≤ p.2 ∧ p.2 ≤ up ∧
        CanonIn (lo, up) p) ∧
      (∀ x : Nat, (∃ p ∈ L, p.1 ≤ x ∧ x ≤ p.2) ↔ max s lo ≤ x ∧ x ≤ min e up) ∧
      L.Pairwise (fun p q => p.2 < q.1) := by
  intro f
  induction f with
  | zero => intro s e lo up h1 h2 h3 h4; omega
  | succ f ih =>
    intro s e lo up hs he hlu hf
    by_cases hbase : s ≤ lo ∧ up ≤ e
    · refine ⟨[(lo, up)], by simp [splitF, hbase], ?_, ?_, ?_⟩
      · intro p hp
        simp only [List.mem_singleton] at hp
        subst hp
        exact ⟨hbase.1, hbase.2, le_refl _, hlu, le_refl _, CanonIn.refl _⟩
      · intro x
        simp only [List.mem_singleton]
        constructor
        · rintro ⟨p, hp, h1, h2⟩; subst hp; omega
        · intro h; exact ⟨(lo, up), rfl, by omega, by omega⟩
      · simp
    · have hlt : lo < up := by
        rcases Nat.eq_or_lt_of_le hlu with h | h
        · exact absurd ⟨by omega, by omega⟩ hbase
        · exact h
      have hmlo : lo ≤ (lo + up) / 2 := by omega
      have hmup : (lo + up) / 2 < up := by omega
      by_cases hsl : s ≤ (lo + up) / 2
      · obtain ⟨ls, hlseq, hlsmem, hlsuni, hlspw⟩ :=
          ih s e lo ((lo + up) / 2) hsl he hmlo (by omega)
        by_cases hme : (lo + up) / 2 < e
        · obtain ⟨rs, hrseq, hrsmem, hrsuni, hrspw⟩ :=
            ih s e ((lo + up) / 2 + 1) up hs (by omega) (by omega) (by omega)
          refine ⟨ls ++ rs, ?_, ?_, ?_, ?_⟩
          · simp only [splitF]
            rw [if_neg hbase, if_pos hsl, if_pos hme, hlseq, hrseq]
          · intro p hp
            rcases List.mem_append.mp hp with hp | hp
            · obtain ⟨c1, c2, c3, c4, c5, c6⟩ := hlsmem p hp
              exact ⟨c1, c2, c3, c4, by omega, CanonIn.left hlt c6⟩
            · obtain ⟨c1, c2, c3, c4, c5, c6⟩ := hrsmem p hp
              exact ⟨c1, c2, by omega, c4, c5, CanonIn.right hlt c6⟩
          · intro x
            have h1 := hlsuni x
            have h2 := hrsuni x
            constructor
            · rintro ⟨p, hp, hx1, hx2⟩
              rcases List.mem_append.mp hp with hp | hp
              · have := h1.mp ⟨p, hp, hx1, hx2⟩; omega
              · have := h2.mp ⟨p, hp, hx1, hx2⟩; omega
            · intro hx
              by_cases hxm : x ≤ (lo + up) / 2
              · obtain ⟨p, hp, h⟩ := h1.mpr (by omega)
                exact ⟨p, List.mem_append.mpr (Or.inl hp), h⟩
              · obtain ⟨p, hp, h⟩ := h2.mpr (by omega)
                exact ⟨p, List.mem_append.mpr (Or.inr hp), h⟩
          · rw [List.pairwise_append]
            refine ⟨hlspw, hrspw, ?_⟩
            intro p hp q hq
            have h1 := hlsmem p hp
            have h2 := hrsmem q hq
            omega
        · refine ⟨ls ++ [], ?_, ?_, ?_, ?_⟩
          · simp only [splitF]
            rw [if_neg hbase, if_pos hsl, if_neg hme, hlseq]
          · intro p hp
            rw [List.append_nil] at hp
            obtain ⟨c1, c2, c3, c4, c5, c6⟩ := hlsmem p hp
            exact ⟨c1, c2, c3, c4, by omega, CanonIn.left hlt c6⟩
          · intro x
            rw [List.append_nil]
            have h1 := hlsuni x
            constructor
            · intro h; have := h1.mp h; omega
            · intro hx; exact h1.mpr (by omega)
          · rw [List.append_nil]; exact hlspw
      · by_cases hme : (lo + up) / 2 < e
        · obtain ⟨rs, hrseq, hrsmem, hrsuni, hrspw⟩ :=
            ih s e ((lo + up) / 2 + 1) up hs (by omega) (by omega) (by omega)
          refine ⟨[] ++ rs, ?_, ?_, ?_, ?_⟩
          · simp only [splitF]
            rw [if_neg hbase, if_neg hsl, if_pos hme, hrseq]
          · intro p hp
            rw [List.nil_append] at hp
            obtain ⟨c1, c2, c3, c4, c5, c6⟩ := hrsmem p hp
            exact ⟨c1, c2, by omega, c4, c5, CanonIn.right hlt c6⟩
          · intro x
            rw [List.nil_append]
            have h2 := hrsuni x
            constructor
            · intro h; have := h2.mp h; omega
            · intro hx; exact h2.mpr (by omega)
          · rw [List.nil_append]; exact hrspw
        · refine ⟨[], ?_, ?_, ?_, ?_⟩
          · simp only [splitF]
            rw [if_neg hbase, if_neg hsl, if_neg hme]
            rfl
          · intro p hp; simp at hp
          · intro x
            constructor
            · rintro ⟨p, hp, _⟩; exact absurd hp (List.not_mem_nil p)
            · intro h; omega
          · simp

/-- Every canonical node contained in `[s, e]` is contained in one of the
nodes returned by the decomposition.  This is the maximality property behind
minimality of the decomposition and completeness of the stabbing query. -/
theorem splitF_embed : ∀ (f s e lo up : Nat), s ≤ up → lo ≤ e → lo ≤ up →
    up - lo < f →
    ∀ (a b : Nat), CanonIn (lo, up) (a, b) → s ≤ a → b ≤ e →
    ∀ L, splitF f s e lo up = some L → ∃ p ∈ L, p.1 ≤ a ∧ b ≤ p.2 := by
  intro f
  induction f with
  | zero => intro s e lo up h1 h2 h3 h4; omega
  | succ f ih =>
    intro s e lo up hs he hlu hf a b hcan ha hb L hL
    by_cases hbase : s ≤ lo ∧ up ≤ e
    · have hLeq : L = [(lo, up)] := by
        simp [splitF, hbase] at hL
        exact hL.symm
      subst hLeq
      have hbd := canonIn_bounds (lo, up) (a, b) hcan hlu
      exact ⟨(lo, up), List.mem_singleton.mpr rfl, by omega, by omega⟩
    · have hlt : lo < up := by
        rcases Nat.eq_or_lt_of_le hlu with h | h
        · exact absurd ⟨by omega, by omega⟩ hbase
        · exact h
      cases hcan with
      | refl => exact absurd ⟨ha, hb⟩ hbase
      | left hlt2 hc =>
        have hbd := canonIn_bounds (lo, (lo + up) / 2) (a, b) hc (by omega)
        simp only at hbd
        have hsl : s ≤ (lo + up) / 2 := by omega
        simp only [splitF] at hL
        rw [if_neg hbase, if_pos hsl] at hL
        cases hls : splitF f s e lo ((lo + up) / 2) with
        | none => rw [hls] at hL; exact absurd hL (by simp)
        | some ls =>
          rw [hls] at hL
          cases hR : (if (lo + up) / 2 < e then
              splitF f s e ((lo + up) / 2 + 1) up else some []) with
          | none => rw [hR] at hL; exact absurd hL (by simp)
          | some rs =>
            rw [hR] at hL
            simp only [Option.some.injEq] at hL
            obtain ⟨p, hp, h1, h2⟩ :=
              ih s e lo ((lo + up) / 2) hsl he (by omega) (by omega)
                a b hc ha hb ls hls
            exact ⟨p, hL ▸ List.mem_append.mpr (Or.inl hp), h1, h2⟩
      | right hlt2 hc =>
        have hbd := canonIn_bounds ((lo + up) / 2 + 1, up) (a, b) hc (by omega)
        simp only at hbd
        have hme : (lo + up) / 2 < e := by omega
        simp only [splitF] at hL
        rw [if_neg hbase, if_pos hme] at hL
        cases hrs : splitF f s e ((lo + up) / 2 + 1) up with
        | none =>
          rw [hrs] at hL
          rcases hL2 : (if s ≤ (lo + up) / 2 then
              splitF f s e lo ((lo + up) / 2) else some []) with _ | ls
          all_goals rw [hL2] at hL
          · exact absurd hL (by simp)
          · exact absurd hL (by simp)
        | some rs =>
          rw [hrs] at hL
          rcases hL2 : (if s ≤ (lo + up) / 2 then
              splitF f s e lo ((lo + up) / 2) else some []) with _ | ls
          all_goals rw [hL2] at hL
          · exact absurd hL (by simp)
          · simp only [Option.some.injEq] at hL
            obtain ⟨p, hp, h1, h2⟩ :=
              ih s e ((lo + up) / 2 + 1) up hs (by omega) (by omega) (by omega)
                a b hc ha hb rs hrs
            exact ⟨p, hL ▸ List.mem_append.mpr (Or.inr hp), h1, h2⟩

/-- `_split_interval(6, 6, 5, 4)` reduces to itself: the recursion never
reaches its base case, whatever the fuel. -/
theorem splitF_loop_5_4 : ∀ f : Nat, splitF f 6 6 5 4 = none := by
  intro f
  induction f with
  | zero => rfl
  | succ f ih =>
    show splitF (f + 1) 6 6 5 4 = none
    simp only [splitF]
    rw [if_neg (by omega)]
    norm_num
    rw [ih]

theorem splitF_loop_4_4 : ∀ f : Nat, splitF f 6 6 4 4 = none := by
  intro f
  induction f with
  | zero => rfl
  | succ f ih =>
    show splitF (f + 1) 6 6 4 4 = none
    simp only [splitF]
    rw [if_neg (by omega)]
    norm_num
    rw [splitF_loop_5_4]

theorem splitF_loop_3_4 : ∀ f : Nat, splitF f 6 6 3 4 = none := by
  intro f
  induction f with
  | zero => rfl
  | succ f ih =>
    show splitF (f + 1) 6 6 3 4 = none
    simp only [splitF]
    rw [if_neg (by omega)]
    norm_num
    rw [splitF_loop_4_4]

/-- `_split_interval(6, 6, 0, 4)` never terminates: with `start = 6` above
`max_endpoint = 4` the descent reaches the degenerate node `(5, 4)` which
recurses into itself forever. -/
theorem splitF_loop_0_4 : ∀ f : Nat, splitF f 6 6 0 4 = none := by
  intro f
  induction f with
  | zero => rfl
  | succ f ih =>
    show splitF (f + 1) 6 6 0 4 = none
    simp only [splitF]
    rw [if_neg (by omega)]
    norm_num
    rw [splitF_loop_3_4]

/-- The sequence of nodes scanned by the `while` loop of `ST.cover`: each
iteration first narrows `[lower, upper]` to the half containing `value`,
then scans that node, and stops once `lower == upper`.  Fuel-indexed; the
gap halves each iteration so `2 * max_endpoint + 1` fuel always suffices. -/
def coverPathF : Nat → Nat → Nat → Nat → List (Nat × Nat)
  | 0, _, _, _ => []
  | f + 1, v, lo, up =>
    if v ≤ (lo + up) / 2 then
      (lo, (lo + up) / 2) ::
        (if lo = (lo + up) / 2 then [] else coverPathF f v lo ((lo + up) / 2))
    else
      ((lo + up) / 2 + 1, up) ::
        (if (lo + up) / 2 + 1 = up then [] else coverPathF f v ((lo + up) / 2 + 1) up)

/-- The full descent performed by `cover(value)`, starting from
`lower = 0, upper = 2 * max_endpoint`. -/
def coverPath (M v : Nat) : List (Nat × Nat) := coverPathF (2 * M + 1) v 0 (2 * M)

/-- Nodes on the descent path below a proper node are canonical sub-nodes of
it and contain the query value. -/
theorem coverPathF_mem : ∀ (f v lo up : Nat), lo < up → lo ≤ v → v ≤ up →
    up - lo < f →
    ∀ n ∈ coverPathF f v lo up,
      CanonIn (lo, up) n ∧ n.1 ≤ v ∧ v ≤ n.2 ∧ n.2 - n.1 < up - lo := by
  intro f
  induction f with
  | zero => intro v lo up h1 h2 h3 h4; omega
  | succ f ih =>
    intro v lo up hlt hlv hvu hf n hn
    simp only [coverPathF] at hn
    by_cases hv : v ≤ (lo + up) / 2
    · rw [if_pos hv] at hn
      rcases List.mem_cons.mp hn with hn | hn
      · subst hn
        refine ⟨CanonIn.left hlt (CanonIn.refl _), hlv, hv, by omega⟩
      · by_cases hleaf : lo = (lo + up) / 2
        · rw [if_pos hleaf] at hn
          exact absurd hn (List.not_mem_nil n)
        · rw [if_neg hleaf] at hn
          obtain ⟨hc, h1, h2, h3⟩ :=
            ih v lo ((lo + up) / 2) (by omega) hlv hv (by omega) n hn
          exact ⟨canonIn_trans _ _ _ (CanonIn.left hlt (CanonIn.refl _)) hc,
            h1, h2, by omega⟩
    · rw [if_neg hv] at hn
      rcases List.mem_cons.mp hn with hn | hn
      · subst hn
        refine ⟨CanonIn.right hlt (CanonIn.refl _), by omega, hvu, by omega⟩
      · by_cases hleaf : (lo + up) / 2 + 1 = up
        · rw [if_pos hleaf] at hn
          exact absurd hn (List.not_mem_nil n)
        · rw [if_neg hleaf] at hn
          obtain ⟨hc, h1, h2, h3⟩ :=
            ih v ((lo + up) / 2 + 1) up (by omega) (by omega) hvu (by omega) n hn
          exact ⟨canonIn_trans _ _ _ (CanonIn.right hlt (CanonIn.refl _)) hc,
            h1, h2, by omega⟩

/-- Completeness of the descent: every proper canonical descendant of the
current node that contains the query value is visited. -/
theorem coverPathF_complete : ∀ (f v lo up : Nat), lo < up → lo ≤ v → v ≤ up →
    up - lo < f →
    ∀ n, CanonIn (lo, up) n → n ≠ (lo, up) → n.1 ≤ v → v ≤ n.2 →
    n ∈ coverPathF f v lo up := by
  intro f
  induction f with
  | zero => intro v lo up h1 h2 h3 h4; omega
  | succ f ih =>
    intro v lo up hlt hlv hvu hf n hcan hne hn1 hn2
    cases hcan with
    | refl => exact absurd rfl hne
    | left hlt2 hc =>
      have hbd := canonIn_bounds (lo, (lo + up) / 2) n hc (by omega)
      have hv : v ≤ (lo + up) / 2 := by omega
      simp only [coverPathF]
      rw [if_pos hv]
      by_cases heq : n = (lo, (lo + up) / 2)
      · exact heq ▸ List.mem_cons_self _ _
      · apply List.mem_cons_of_mem
        have hleaf : lo ≠ (lo + up) / 2 := by
          intro h
          have hc2 := hc
          rw [← h] at hc2
          have h3 := canonIn_leaf lo n hc2
          exact heq (h3.trans (by rw [← h]))
        rw [if_neg hleaf]
        exact ih v lo ((lo + up) / 2) (by omega) hlv hv (by omega) n hc heq hn1 hn2
    | right hlt2 hc =>
      have hbd := canonIn_bounds ((lo + up) / 2 + 1, up) n hc (by omega)
      have hv : ¬v ≤ (lo + up) / 2 := by omega
      simp only [coverPathF]
      rw [if_neg hv]
      by_cases heq : n = ((lo + up) / 2 + 1, up)
      · exact heq ▸ List.mem_cons_self _ _
      · apply List.mem_cons_of_mem
        have hleaf : (lo + up) / 2 + 1 ≠ up := by
          intro h
          have hc2 := hc
          rw [h] at hc2
          have h3 := canonIn_leaf up n hc2
          exact heq (h3.trans (by rw [h]))
        rw [if_neg hleaf]
        exact ih v ((lo + up) / 2 + 1) up (by omega) (by omega) hvu (by omega)
          n hc heq hn1 hn2

/-- The path nodes have strictly decreasing gap, hence are pairwise distinct. -/
theorem coverPathF_pairwise : ∀ (f v lo up : Nat), lo < up → lo ≤ v →
    v ≤ up → up - lo < f →
    (coverPathF f v lo up).Pairwise (fun a b => b.2 - b.1 < a.2 - a.1) := by
  intro f
  induction f with
  | zero => intro v lo up h1 h2 h3 h4; omega
  | succ f ih =>
    intro v lo up hlt hlv hvu hf
    simp only [coverPathF]
    by_cases hv : v ≤ (lo + up) / 2
    · rw [if_pos hv]
      by_cases hleaf : lo = (lo + up) / 2
      · rw [if_pos hleaf]
        simp
      · rw [if_neg hleaf]
        rw [List.pairwise_cons]
        constructor
        · intro n hn
          have hb := (coverPathF_mem f v lo ((lo + up) / 2) (by omega)
            (by omega) (by omega) (by omega) n hn).2.2.2
          simp only
          omega
        · exact ih v lo ((lo + up) / 2) (by omega) (by omega) (by omega) (by omega)
    · rw [if_neg hv]
      by_cases hleaf : (lo + up) / 2 + 1 = up
      · rw [if_pos hleaf]
        simp
      · rw [if_neg hleaf]
        rw [List.pairwise_cons]
        constructor
        · intro n hn
          have hb := (coverPathF_mem f v ((lo + up) / 2 + 1) up (by omega)
            (by omega) (by omega) (by omega) n hn).2.2.2
          simp only
          omega
        · exact ih v ((lo + up) / 2 + 1) up (by omega) (by omega) (by omega) (by omega)

/-- A key-value store state: an association list strictly sorted by
byte-lexicographic key order, mirroring LevelDB's ordered key space. -/
def DBS (db : List (List Nat × List Nat)) : Prop :=
  db.Pairwise (fun a b => byteLtB a.1 b.1 = true)

/-- `batch.put(k, v)`: insert or overwrite, keeping the key order. -/
def dbPut (k v : List Nat) : List (List Nat × List Nat) → List (List Nat × List Nat)
  | [] => [(k, v)]
  | (k2, v2) :: rest =>
    if byteLtB k k2 then (k, v) :: (k2, v2) :: rest
    else if k = k2 then (k, v) :: rest
    else (k2, v2) :: dbPut k v rest

/-- `batch.delete(k)`: remove the entry with key `k`, if present. -/
def dbDel (k : List Nat) : List (List Nat × List Nat) → List (List Nat × List Nat)
  | [] => []
  | (k2, v2) :: rest => if k = k2 then rest else (k2, v2) :: dbDel k rest

theorem dbPut_mem (k v : List Nat) :
    ∀ db, DBS db → ∀ kv, (kv ∈ dbPut k v db ↔ kv = (k, v) ∨ (kv ∈ db ∧ kv.1 ≠ k)) := by
  intro db
  induction db with
  | nil =>
    intro _ kv
    simp [dbPut]
  | cons h2 rest ih =>
    obtain ⟨k2, v2⟩ := h2
    intro hs kv
    have hs2 : DBS rest := (List.pairwise_cons.mp hs).2
    have hmin : ∀ p ∈ rest, byteLtB k2 p.1 = true := (List.pairwise_cons.mp hs).1
    simp only [dbPut]
    by_cases hlt : byteLtB k k2
    · rw [if_pos hlt]
      constructor
      · intro hkv
        rcases List.mem_cons.mp hkv with h | h
        · exact Or.inl h
        · refine Or.inr ⟨h, ?_⟩
          intro hk
          rcases List.mem_cons.mp h with h3 | h3
          · rw [h3] at hk
            simp only at hk
            rw [hk] at hlt
            rw [byteLtB_irrefl] at hlt
            exact absurd hlt (by simp)
          · have := hmin kv h3
            rw [hk] at this
            have h4 := byteLtB_trans _ _ _ hlt this
            rw [byteLtB_irrefl] at h4
            exact absurd h4 (by simp)
      · rintro (h | ⟨h, _⟩)
        · exact h ▸ List.mem_cons_self _ _
        · exact List.mem_cons_of_mem _ h
    · rw [if_neg hlt]
      by_cases heq : k = k2
      · rw [if_pos heq]
        constructor
        · intro hkv
          rcases List.mem_cons.mp hkv with h | h
          · exact Or.inl h
          · refine Or.inr ⟨List.mem_cons_of_mem _ h, ?_⟩
            intro hk
            have := hmin kv h
            rw [hk, heq] at this
            rw [byteLtB_irrefl] at this
            exact absurd this (by simp)
        · rintro (h | ⟨h, hne⟩)
          · exact h ▸ List.mem_cons_self _ _
          · rcases List.mem_cons.mp h with h3 | h3
            · exfalso; apply hne; rw [h3, heq]
            · exact List.mem_cons_of_mem _ h3
      · rw [if_neg heq]
        constructor
        · intro hkv
          rcases List.mem_cons.mp hkv with h | h
          · exact Or.inr ⟨h ▸ List.mem_cons_self _ _, by rw [h]; exact fun hh => heq hh.symm⟩
          · rcases (ih hs2 kv).mp h with h3 | ⟨h3, h4⟩
            · exact Or.inl h3
            · exact Or.inr ⟨List.mem_cons_of_mem _ h3, h4⟩
        · rintro (h | ⟨h, hne⟩)
          · exact List.mem_cons_of_mem _ ((ih hs2 kv).mpr (Or.inl h))
          · rcases List.mem_cons.mp h with h3 | h3
            · exact h3 ▸ List.mem_cons_self _ _
            · exact List.mem_cons_of_mem _ ((ih hs2 kv).mpr (Or.inr ⟨h3, hne⟩))

theorem dbPut_sorted (k v : List Nat) :
    ∀ db, DBS db → DBS (dbPut k v db) := by
  intro db
  induction db with
  | nil =>
    intro _
    simp [dbPut, DBS]
  | cons h2 rest ih =>
    obtain ⟨k2, v2⟩ := h2
    intro hs
    have hs2 : DBS rest := (List.pairwise_cons.mp hs).2
    have hmin : ∀ p ∈ rest, byteLtB k2 p.1 = true := (List.pairwise_cons.mp hs).1
    simp only [dbPut]
    by_cases hlt : byteLtB k k2
    · rw [if_pos hlt]
      rw [DBS, List.pairwise_cons]
      refine ⟨?_, hs⟩
      intro p hp
      rcases List.mem_cons.mp hp with h | h
      · rw [h]; exact hlt
      · exact byteLtB_trans _ _ _ hlt (hmin p h)
    · rw [if_neg hlt]
      by_cases heq : k = k2
      · rw [if_pos heq]
        rw [DBS, List.pairwise_cons]
        refine ⟨?_, hs2⟩
        intro p hp
        rw [heq]
        exact hmin p hp
      · rw [if_neg heq]
        rw [DBS, List.pairwise_cons]
        refine ⟨?_, ih hs2⟩
        intro p hp
        rcases (dbPut_mem k v rest hs2 p).mp hp with h | ⟨h, _⟩
        · rw [h]
          rcases byteLtB_total k k2 with h3 | h3 | h3
          · exact absurd h3 hlt
          · exact absurd h3 heq
          · exact h3
        · exact hmin p h

theorem dbDel_sublist (k : List Nat) :
    ∀ db, List.Sublist (dbDel k db) db := by
  intro db
  induction db with
  | nil => simp [dbDel]
  | cons h2 rest ih =>
    obtain ⟨k2, v2⟩ := h2
    simp only [dbDel]
    by_cases heq : k = k2
    · rw [if_pos heq]
      exact List.sublist_cons_of_sublist _ (List.Sublist.refl rest)
    · rw [if_neg heq]
      exact List.Sublist.cons₂ _ ih

theorem dbDel_sorted (k : List Nat) (db : List (List Nat × List Nat))
    (hs : DBS db) : DBS (dbDel k db) :=
  List.Pairwise.sublist (dbDel_sublist k db) hs

theorem dbDel_mem (k : List Nat) :
    ∀ db, DBS db → ∀ kv, (kv ∈ dbDel k db ↔ kv ∈ db ∧ kv.1 ≠ k) := by
  intro db
  induction db with
  | nil => intro _ kv; simp [dbDel]
  | cons h2 rest ih =>
    obtain ⟨k2, v2⟩ := h2
    intro hs kv
    have hs2 : DBS rest := (List.pairwise_cons.mp hs).2
    have hmin : ∀ p ∈ rest, byteLtB k2 p.1 = true := (List.pairwise_cons.mp hs).1
    simp only [dbDel]
    by_cases heq : k = k2
    · rw [if_pos heq]
      constructor
      · intro h
        refine ⟨List.mem_cons_of_mem _ h, ?_⟩
        intro hk
        have := hmin kv h
        rw [hk, heq] at this
        rw [byteLtB_irrefl] at this
        exact absurd this (by simp)
      · rintro ⟨h, hne⟩
        rcases List.mem_cons.mp h with h3 | h3
        · exfalso; apply hne; rw [h3, heq]
        · exact h3
    · rw [if_neg heq]
      constructor
      · intro h
        rcases List.mem_cons.mp h with h3 | h3
        · exact ⟨h3 ▸ List.mem_cons_self _ _, by rw [h3]; exact fun hh => heq hh.symm⟩
        · rcases (ih hs2 kv).mp h3 with ⟨h4, h5⟩
          exact ⟨List.mem_cons_of_mem _ h4, h5⟩
      · rintro ⟨h, hne⟩
        rcases List.mem_cons.mp h with h3 | h3
        · exact h3 ▸ List.mem_cons_self _ _
        · exact List.mem_cons_of_mem _ ((ih hs2 kv).mpr ⟨h3, hne⟩)

/-- A staged batch operation, as collected by `plyvel`'s `write_batch`. -/
inductive BOp where
  | bput (k v : List Nat)
  | bdel (k : List Nat)
deriving DecidableEq

/-- Apply one staged operation to the store. -/
def applyB (db : List (List Nat × List Nat)) : BOp → List (List Nat × List Nat)
  | BOp.bput k v => dbPut k v db
  | BOp.bdel k => dbDel k db

/-- Commit a batch: all staged operations applied as one unit
(`batch.write()`). -/
def applyBatch (db : List (List Nat × List Nat)) (ops : List BOp) :
    List (List Nat × List Nat) := ops.foldl applyB db

/-- An interval record as supplied to `put`/`delete`:
`(owner, start, end, level)`. -/
structure IRec where
  owner : List Nat
  s : Nat
  e : Nat
  lvl : Nat
deriving DecidableEq

/-- The value stored with every segment entry:
`struct.pack(">QQ", start, end)`, the original interval bounds. -/
def segVal (s e : Nat) : List Nat := beBytes 8 s ++ beBytes 8 e

/-- The segment entry staged for one canonical node of a record's
decomposition: key `(1, lower, upper, level, owner)`, value the original
`(start, end)`. -/
def segEntry (r : IRec) (p : Nat × Nat) : List Nat × List Nat :=
  (segKey p.1 p.2 r.lvl r.owner, segVal r.s r.e)

/-- The START boundary marker of a record, value `"\x00"`. -/
def startEntry (r : IRec) : List Nat × List Nat :=
  (epKey r.s r.lvl TYPE_START r.owner, [0])

/-- The END boundary marker of a record, value `"\x00"`. -/
def endEntry (r : IRec) : List Nat × List Nat :=
  (epKey r.e r.lvl TYPE_END r.owner, [0])

/-- The persisted entries of one interval record, in the order `put` stages
them: one segment entry per canonical node of the decomposition, then the
START marker, then the END marker. -/
def recEntries (M : Nat) (r : IRec) : Option (List (List Nat × List Nat)) :=
  (splitF (M + 1) r.s r.e 0 M).map (fun si =>
    si.map (segEntry r) ++ [startEntry r, endEntry r])

/-- `ST.put(uuid_, start, end, level)`: decompose, stage all writes, commit
as one batch.  `none` models a non-terminating `_split_interval` call. -/
def stPut (M : Nat) (db : List (List Nat × List Nat)) (o : List Nat)
    (s e lvl : Nat) : Option (List (List Nat × List Nat)) :=
  (recEntries M ⟨o, s, e, lvl⟩).map (fun es =>
    applyBatch db (es.map (fun kv => BOp.bput kv.1 kv.2)))

/-- `ST.delete(uuid_, start, end, level)`: recompute the same keys and stage
their deletion as one batch. -/
def stDelete (M : Nat) (db : List (List Nat × List Nat)) (o : List Nat)
    (s e lvl : Nat) : Option (List (List Nat × List Nat)) :=
  (recEntries M ⟨o, s, e, lvl⟩).map (fun es =>
    applyBatch db (es.map (fun kv => BOp.bdel kv.1)))

/-- `ST.put` through a store whose single atomic batch commit may fail
(`ok = false`): per the store contract the batch is all-or-nothing. -/
def stPutA (M : Nat) (ok : Bool) (db : List (List Nat × List Nat))
    (o : List Nat) (s e lvl : Nat) : Option (List (List Nat × List Nat)) :=
  (recEntries M ⟨o, s, e, lvl⟩).map (fun es =>
    if ok then applyBatch db (es.map (fun kv => BOp.bput kv.1 kv.2)) else db)

/-- `ST.delete` through a store whose batch commit may fail. -/
def stDeleteA (M : Nat) (ok : Bool) (db : List (List Nat × List Nat))
    (o : List Nat) (s e lvl : Nat) : Option (List (List Nat × List Nat)) :=
  (recEntries M ⟨o, s, e, lvl⟩).map (fun es =>
    if ok then applyBatch db (es.map (fun kv => BOp.bdel kv.1)) else db)

/-- The reverse-iterated scan window used at each node of `cover`:
strictly between `ks = _segment_key(lower, upper)` and
`ke = _segment_key(lower, upper, level=MAX_LEVEL+1)` (`include_start` and
`include_stop` are both `False`). -/
def inNodeRange (l u : Nat) (k : List Nat) : Bool :=
  byteLtB (segKeyP l u) k && byteLtB k (segKeyL l u (MAX_LEVEL + 1))

/-- `ST._split_segment_key` composed with the value unpack in `cover`:
yields `(uuid, level, start, end)`. -/
def decodeSegEntry (kv : List Nat × List Nat) : List Nat × Nat × Nat × Nat :=
  (kv.1.drop 18, kv.1.getD 17 0, unpackBE (kv.2.take 8),
    unpackBE ((kv.2.drop 8).take 8))

/-- `ST.cover(value)`: walk the root-to-leaf descent and, at each visited
node, yield the decoded segment entries lying strictly inside the node's
scan window, in reverse key order. -/
def cover (M : Nat) (db : List (List Nat × List Nat)) (v : Nat) :
    List (List Nat × Nat × Nat × Nat) :=
  (coverPath M v).flatMap (fun n =>
    ((db.filter (fun kv => inNodeRange n.1 n.2 kv.1)).reverse).map decodeSegEntry)

/-- `ST._split_endpoint_key`: `(endpoint, level, type == TYPE_START, owner)`. -/
def decodeEp (k : List Nat) : Nat × Nat × Bool × List Nat :=
  (unpackBE ((k.drop 1).take 8), k.getD 9 0, k.getD 10 0 == TYPE_START, k.drop 11)

/-- The key window of `query_endpoints`, honoring the include flags exactly
as passed to the underlying iterator. -/
def inIterRange (ks ke : List Nat) (incS incE : Bool) (k : List Nat) : Bool :=
  (byteLtB ks k || (incS && k == ks)) && (byteLtB k ke || (incE && k == ke))

/-- `ST.query_endpoints(start, stop, reverse, include_start, include_stop)`:
a bounded, optionally reversed scan over endpoint keys, decoded. -/
def queryEndpoints (M : Nat) (db : List (List Nat × List Nat))
    (st sp : Option Nat) (rev incS incE : Bool) : List (Nat × Nat × Bool × List Nat) :=
  ((if rev then
      ((db.map Prod.fst).filter (inIterRange
        (epKeyP (match st with | none => 0 | some v => v))
        (match sp with
          | none => epKeyL M (MAX_LEVEL + 1)
          | some v => epKeyL v (MAX_LEVEL + 1)) incS incE)).reverse
    else
      (db.map Prod.fst).filter (inIterRange
        (epKeyP (match st with | none => 0 | some v => v))
        (match sp with
          | none => epKeyL M (MAX_LEVEL + 1)
          | some v => epKeyL v (MAX_LEVEL + 1)) incS incE)).map decodeEp)

/-- A call recorded in a history of mutations. -/
inductive HOp where
  | hput (r : IRec)
  | hdel (r : IRec)
deriving DecidableEq

/-- Replay a history of `put`/`delete` calls against the store. -/
def runHist (M : Nat) : List (List Nat × List Nat) → List HOp →
    Option (List (List Nat × List Nat))
  | db, [] => some db
  | db, HOp.hput r :: t =>
    match stPut M db r.owner r.s r.e r.lvl with
    | none => none
    | some db2 => runHist M db2 t
  | db, HOp.hdel r :: t =>
    match stDelete M db r.owner r.s r.e r.lvl with
    | none => none
    | some db2 => runHist M db2 t

/-- The set of live interval records after a history: `put` makes a record
live, `delete` with the identical tuple removes it. -/
def liveFrom : List IRec → List HOp → List IRec
  | L, [] => L
  | L, HOp.hput r :: t => liveFrom (if r ∈ L then L else r :: L) t
  | L, HOp.hdel r :: t => liveFrom (L.erase r) t

/-- Live records of a history started from the empty store. -/
def liveList (ops : List HOp) : List IRec := liveFrom [] ops

/-- Argument validity for `put`/`delete`:
`0 ≤ start ≤ end ≤ max_endpoint` and a level in `[0, MAX_LEVEL]`. -/
def validB (M : Nat) (r : IRec) : Bool :=
  decide (r.s ≤ r.e) && decide (r.e ≤ M) && decide (r.lvl ≤ MAX_LEVEL)

/-- Distinctness of the `(owner, level)` pair of two records. -/
def olNe (a b : IRec) : Bool := !(a.owner == b.owner && a.lvl == b.lvl)

/-- Well-formed history: every call has valid arguments, every `put` uses an
`(owner, level)` pair distinct from all live records, and every `delete`
names a live record. -/
def wfFromB (M : Nat) : List IRec → List HOp → Bool
  | _, [] => true
  | L, HOp.hput r :: t => validB M r && L.all (olNe r) && wfFromB M (r :: L) t
  | L, HOp.hdel r :: t => validB M r && decide (r ∈ L) && wfFromB M (L.erase r) t

/-- Well-formed history started from the empty store. -/
def wfHistB (M : Nat) (ops : List HOp) : Bool := wfFromB M [] ops

theorem segKey_as_parts (a b lvl : Nat) (o : List Nat) :
    segKey a b lvl o = segKeyP a b ++ (lvl :: o) := by
  simp [segKey, segKeyL]

theorem epKey_as_parts (v lvl kind : Nat) (o : List Nat) :
    epKey v lvl kind o = epKeyP v ++ (lvl :: kind :: o) := by
  simp [epKey, epKeyL]

theorem segKeyP_inj (a b l u : Nat) (ha : a < 256 ^ 8) (hb : b < 256 ^ 8)
    (hl : l < 256 ^ 8) (hu : u < 256 ^ 8) :
    segKeyP a b = segKeyP l u ↔ a = l ∧ b = u := by
  simp only [segKeyP, List.cons.injEq, true_and]
  constructor
  · intro h
    rcases List.append_inj h (by rw [beBytes_length, beBytes_length]) with ⟨h1, h2⟩
    exact ⟨(beBytes_inj 8 a l ha hl).mp h1, (beBytes_inj 8 b u hb hu).mp h2⟩
  · rintro ⟨rfl, rfl⟩; rfl

theorem epKeyP_inj (a v : Nat) (ha : a < 256 ^ 8) (hv : v < 256 ^ 8) :
    epKeyP a = epKeyP v ↔ a = v := by
  simp only [epKeyP, List.cons.injEq, true_and]
  exact beBytes_inj 8 a v ha hv

theorem segKey_ne_epKey (l u lvl : Nat) (o : List Nat) (v lvl2 kind : Nat)
    (o2 : List Nat) : segKey l u lvl o ≠ epKey v lvl2 kind o2 := by
  rw [segKey_as_parts, epKey_as_parts]
  intro h
  simp only [segKeyP, epKeyP, List.cons_append, List.cons.injEq] at h
  exact absurd h.1 (by norm_num)

theorem segKey_eq_owner_level (l u lvl l2 u2 lvl2 : Nat) (o o2 : List Nat)
    (h : segKey l u lvl o = segKey l2 u2 lvl2 o2) : o = o2 ∧ lvl = lvl2 := by
  constructor
  · have := congrArg (fun x => List.drop 18 x) h
    simpa [segKey_drop18] using this
  · have := congrArg (fun x => List.getD x 17 0) h
    simpa only [segKey_getD17] using this

theorem epKey_eq_owner_level (v lvl kind v2 lvl2 kind2 : Nat) (o o2 : List Nat)
    (h : epKey v lvl kind o = epKey v2 lvl2 kind2 o2) :
    o = o2 ∧ lvl = lvl2 ∧ kind = kind2 := by
  refine ⟨?_, ?_, ?_⟩
  · have := congrArg (fun x => List.drop 11 x) h
    simpa [epKey_drop11] using this
  · have := congrArg (fun x => List.getD x 9 0) h
    simpa only [epKey_getD9] using this
  · have := congrArg (fun x => List.getD x 10 0) h
    simpa only [epKey_getD10] using this

theorem segKey_inj_full (l u lvl l2 u2 lvl2 : Nat) (o o2 : List Nat)
    (hl : l < 256 ^ 8) (hu : u < 256 ^ 8) (hl2 : l2 < 256 ^ 8)
    (hu2 : u2 < 256 ^ 8) (h : segKey l u lvl o = segKey l2 u2 lvl2 o2) :
    l = l2 ∧ u = u2 ∧ lvl = lvl2 ∧ o = o2 := by
  rw [segKey_as_parts, segKey_as_parts] at h
  have hp : segKeyP l u = segKeyP l2 u2 := by
    have h1 := congrArg (fun x => List.take 17 x) h
    simp only at h1
    rw [List.take_left' (segKeyP_length l u), List.take_left' (segKeyP_length l2 u2)] at h1
    exact h1
  rcases (segKeyP_inj l u l2 u2 hl hu hl2 hu2).mp hp with ⟨e1, e2⟩
  subst e1; subst e2
  rcases segKey_eq_owner_level l u lvl l u lvl2 o o2
    (by rw [segKey_as_parts, segKey_as_parts]; exact h) with ⟨e3, e4⟩
  exact ⟨rfl, rfl, e4, e3⟩

theorem epKey_inj_full (v lvl kind v2 lvl2 kind2 : Nat) (o o2 : List Nat)
    (hv : v < 256 ^ 8) (hv2 : v2 < 256 ^ 8)
    (h : epKey v lvl kind o = epKey v2 lvl2 kind2 o2) :
    v = v2 ∧ lvl = lvl2 ∧ kind = kind2 ∧ o = o2 := by
  have hp : epKeyP v = epKeyP v2 := by
    rw [epKey_as_parts, epKey_as_parts] at h
    have h1 := congrArg (fun x => List.take 9 x) h
    simp only at h1
    rw [List.take_left' (epKeyP_length v), List.take_left' (epKeyP_length v2)] at h1
    exact h1
  rcases epKey_eq_owner_level v lvl kind v2 lvl2 kind2 o o2 h with ⟨e1, e2, e3⟩
  exact ⟨(epKeyP_inj v v2 hv hv2).mp hp, e2, e3, e1⟩

theorem inNodeRange_segKey (l u a b lvl : Nat) (o : List Nat)
    (hl : l < 256 ^ 8) (hu : u < 256 ^ 8) (ha : a < 256 ^ 8) (hb : b < 256 ^ 8)
    (hlvl : lvl ≤ MAX_LEVEL) :
    (inNodeRange l u (segKey a b lvl o) = true ↔ a = l ∧ b = u) := by
  rw [inNodeRange, segKey_as_parts]
  by_cases heq : a = l ∧ b = u
  · obtain ⟨rfl, rfl⟩ := heq
    rw [byteLtB_self_append _ _ (by simp)]
    have h2 : byteLtB (segKeyP a b ++ (lvl :: o)) (segKeyL a b (MAX_LEVEL + 1)) = true := by
      show byteLtB (segKeyP a b ++ (lvl :: o)) (segKeyP a b ++ [MAX_LEVEL + 1]) = true
      rw [byteLtB_append_same]
      rw [byteLtB_cons_iff]
      left
      simp [MAX_LEVEL] at hlvl ⊢
      omega
    rw [h2]
    simp
  · have hpne : segKeyP a b ≠ segKeyP l u := by
      intro h
      exact heq ((segKeyP_inj a b l u ha hb hl hu).mp h)
    have h1 : byteLtB (segKeyP l u) (segKeyP a b ++ (lvl :: o)) =
        byteLtB (segKeyP l u) (segKeyP a b) := by
      conv_lhs => rw [show segKeyP l u = segKeyP l u ++ [] by simp]
      exact byteLtB_append_ne _ _ _ _ (by rw [segKeyP_length, segKeyP_length])
        (Ne.symm hpne)
    have h2 : byteLtB (segKeyP a b ++ (lvl :: o)) (segKeyL l u (MAX_LEVEL + 1)) =
        byteLtB (segKeyP a b) (segKeyP l u) := by
      show byteLtB (segKeyP a b ++ (lvl :: o)) (segKeyP l u ++ [MAX_LEVEL + 1]) = _
      exact byteLtB_append_ne _ _ _ _ (by rw [segKeyP_length, segKeyP_length]) hpne
    rw [h1, h2]
    constructor
    · intro h
      rcases Bool.and_eq_true_iff.mp h with ⟨hA, hB⟩
      have := byteLtB_asymm _ _ hA
      rw [this] at hB
      exact absurd hB (by simp)
    · intro h; exact absurd h heq

theorem inNodeRange_epKey (l u v lvl kind : Nat) (o : List Nat) :
    inNodeRange l u (epKey v lvl kind o) = false := by
  have h2 : byteLtB (epKey v lvl kind o) (segKeyL l u (MAX_LEVEL + 1)) = false := by
    rw [epKey_as_parts]
    show byteLtB (2 :: (beBytes 8 v ++ (lvl :: kind :: o)))
      ((1 :: (beBytes 8 l ++ beBytes 8 u)) ++ [MAX_LEVEL + 1]) = false
    cases h : byteLtB (2 :: (beBytes 8 v ++ (lvl :: kind :: o)))
        ((1 :: (beBytes 8 l ++ beBytes 8 u)) ++ [MAX_LEVEL + 1]) with
    | false => rfl
    | true =>
      rw [List.cons_append, byteLtB_cons_iff] at h
      omega
  rw [inNodeRange, h2, Bool.and_false]

theorem epKey_lower_bound (a v lvl kind : Nat) (o : List Nat)
    (ha : a < 256 ^ 8) (hv : v < 256 ^ 8) (hav : a ≤ v) :
    byteLtB (epKeyP a) (epKey v lvl kind o) = true := by
  rw [epKey_as_parts]
  rcases Nat.eq_or_lt_of_le hav with h | h
  · subst h
    exact byteLtB_self_append _ _ (by simp)
  · have hne : epKeyP a ≠ epKeyP v := by
      intro h2
      rw [epKeyP_inj a v ha hv] at h2
      omega
    conv_lhs => rw [show epKeyP a = epKeyP a ++ [] by simp]
    rw [byteLtB_append_ne _ _ _ _ (by rw [epKeyP_length, epKeyP_length]) hne]
    simp only [epKeyP]
    rw [byteLtB_cons_iff]
    right
    exact ⟨rfl, (beBytes_lt 8 a v ha hv).mpr h⟩

theorem epKey_upper_bound (b v lvl kind : Nat) (o : List Nat)
    (hb : b < 256 ^ 8) (hv : v < 256 ^ 8) (hvb : v ≤ b) (hlvl : lvl ≤ MAX_LEVEL) :
    byteLtB (epKey v lvl kind o) (epKeyL b (MAX_LEVEL + 1)) = true := by
  rw [epKey_as_parts]
  show byteLtB (epKeyP v ++ (lvl :: kind :: o)) (epKeyP b ++ [MAX_LEVEL + 1]) = true
  rcases Nat.eq_or_lt_of_le hvb with h | h
  · subst h
    rw [byteLtB_append_same, byteLtB_cons_iff]
    left
    simp [MAX_LEVEL] at hlvl ⊢
    omega
  · have hne : epKeyP v ≠ epKeyP b := by
      intro h2
      rw [epKeyP_inj v b hv hb] at h2
      omega
    rw [byteLtB_append_ne _ _ _ _ (by rw [epKeyP_length, epKeyP_length]) hne]
    simp only [epKeyP]
    rw [byteLtB_cons_iff]
    right
    exact ⟨rfl, (beBytes_lt 8 v b hv hb).mpr h⟩

theorem epKey_lt_value (v1 lvl1 kind1 v2 lvl2 kind2 : Nat) (o1 o2 : List Nat)
    (hv1 : v1 < 256 ^ 8) (hv2 : v2 < 256 ^ 8)
    (h : byteLtB (epKey v1 lvl1 kind1 o1) (epKey v2 lvl2 kind2 o2) = true) :
    v1 ≤ v2 := by
  by_contra hgt
  have hne : epKeyP v1 ≠ epKeyP v2 := by
    intro h2
    rw [epKeyP_inj v1 v2 hv1 hv2] at h2
    omega
  rw [epKey_as_parts, epKey_as_parts,
    byteLtB_append_ne _ _ _ _ (by rw [epKeyP_length, epKeyP_length]) hne] at h
  simp only [epKeyP] at h
  rw [byteLtB_cons_iff] at h
  rcases h with h | ⟨_, h⟩
  · omega
  · rw [beBytes_lt 8 v1 v2 hv1 hv2] at h
    omega

theorem byteLtB_ep_seg (v : Nat) (t : List Nat) (l u lvl : Nat) (o : List Nat) :
    byteLtB (epKeyP v ++ t) (segKey l u lvl o) = false := by
  rw [segKey_as_parts]
  show byteLtB (2 :: (beBytes 8 v ++ t)) ((1 :: (beBytes 8 l ++ beBytes 8 u)) ++ (lvl :: o)) = false
  cases h : byteLtB (2 :: (beBytes 8 v ++ t)) ((1 :: (beBytes 8 l ++ beBytes 8 u)) ++ (lvl :: o)) with
  | false => rfl
  | true =>
    rw [List.cons_append, byteLtB_cons_iff] at h
    omega

/-- Applying a batch of `put` operations with pairwise-distinct keys:
the result holds exactly the staged pairs plus the untouched old entries. -/
theorem applyPuts_mem : ∀ (ps : List (List Nat × List Nat))
    (db : List (List Nat × List Nat)), DBS db → (ps.map Prod.fst).Nodup →
    DBS (applyBatch db (ps.map (fun kv => BOp.bput kv.1 kv.2))) ∧
    ∀ kv, (kv ∈ applyBatch db (ps.map (fun kv => BOp.bput kv.1 kv.2)) ↔
      kv ∈ ps ∨ (kv ∈ db ∧ kv.1 ∉ ps.map Prod.fst)) := by
  intro ps
  induction ps with
  | nil =>
    intro db hs _
    refine ⟨hs, ?_⟩
    intro kv
    simp [applyBatch]
  | cons p rest ih =>
    intro db hs hnd
    simp only [List.map_cons, List.nodup_cons] at hnd
    obtain ⟨hp1, hnd2⟩ := hnd
    have hstep : applyBatch db ((p :: rest).map (fun kv => BOp.bput kv.1 kv.2)) =
        applyBatch (dbPut p.1 p.2 db) (rest.map (fun kv => BOp.bput kv.1 kv.2)) := by
      simp [applyBatch, applyB]
    have hs2 : DBS (dbPut p.1 p.2 db) := dbPut_sorted _ _ db hs
    obtain ⟨hsr, hmem⟩ := ih (dbPut p.1 p.2 db) hs2 hnd2
    rw [hstep]
    refine ⟨hsr, ?_⟩
    intro kv
    rw [hmem kv, dbPut_mem _ _ db hs kv]
    constructor
    · rintro (h | ⟨h | ⟨h1, h2⟩, h3⟩)
      · exact Or.inl (List.mem_cons_of_mem _ h)
      · left
        rw [h]
        exact List.mem_cons_self _ _
      · refine Or.inr ⟨h1, ?_⟩
        simp only [List.map_cons, List.mem_cons]
        rintro (h4 | h4)
        · exact h2 h4
        · exact h3 h4
    · rintro (h | ⟨h1, h2⟩)
      · rcases List.mem_cons.mp h with h3 | h3
        · refine Or.inr ⟨Or.inl h3, ?_⟩
          rw [h3]
          intro hc
          exact hp1 hc
        · exact Or.inl h3
      · simp only [List.map_cons, List.mem_cons] at h2
        push_neg at h2
        exact Or.inr ⟨Or.inr ⟨h1, h2.1⟩, h2.2⟩

/-- Applying a batch of `delete` operations removes exactly the staged keys. -/
theorem applyDels_mem : ∀ (ks : List (List Nat))
    (db : List (List Nat × List Nat)), DBS db →
    DBS (applyBatch db (ks.map BOp.bdel)) ∧
    ∀ kv, (kv ∈ applyBatch db (ks.map BOp.bdel) ↔ kv ∈ db ∧ kv.1 ∉ ks) := by
  intro ks
  induction ks with
  | nil =>
    intro db hs
    refine ⟨hs, ?_⟩
    intro kv
    simp [applyBatch]
  | cons k rest ih =>
    intro db hs
    have hstep : applyBatch db ((k :: rest).map BOp.bdel) =
        applyBatch (dbDel k db) (rest.map BOp.bdel) := by
      simp [applyBatch, applyB]
    have hs2 : DBS (dbDel k db) := dbDel_sorted k db hs
    obtain ⟨hsr, hmem⟩ := ih (dbDel k db) hs2
    rw [hstep]
    refine ⟨hsr, ?_⟩
    intro kv
    rw [hmem kv, dbDel_mem k db hs kv]
    constructor
    · rintro ⟨⟨h1, h2⟩, h3⟩
      refine ⟨h1, ?_⟩
      simp only [List.mem_cons]
      rintro (h4 | h4)
      · exact h2 h4
      · exact h3 h4
    · rintro ⟨h1, h2⟩
      simp only [List.mem_cons] at h2
      push_neg at h2
      exact ⟨⟨h1, h2.1⟩, h2.2⟩

theorem recEntries_eq (M : Nat) (r : IRec) (es : List (List Nat × List Nat))
    (h : recEntries M r = some es) :
    ∃ si, splitF (M + 1) r.s r.e 0 M = some si ∧
      es = si.map (segEntry r) ++ [startEntry r, endEntry r] := by
  cases hsi : splitF (M + 1) r.s r.e 0 M with
  | none => rw [recEntries, hsi] at h; exact absurd h (by simp)
  | some si =>
    rw [recEntries, hsi] at h
    simp only [Option.map_some', Option.some.injEq] at h
    exact ⟨si, rfl, h.symm⟩

/-- For a record with valid arguments the decomposition succeeds, and its
nodes cover exactly `[start, end]`. -/
theorem recEntries_of_valid (M : Nat) (r : IRec) (h1 : r.s ≤ r.e) (h2 : r.e ≤ M) :
    ∃ si, splitF (M + 1) r.s r.e 0 M = some si ∧
      recEntries M r = some (si.map (segEntry r) ++ [startEntry r, endEntry r]) ∧
      (∀ p ∈ si, r.s ≤ p.1 ∧ p.2 ≤ r.e ∧ p.1 ≤ p.2 ∧ p.2 ≤ M ∧ Canon M p) ∧
      (∀ x : Nat, (∃ p ∈ si, p.1 ≤ x ∧ x ≤ p.2) ↔ r.s ≤ x ∧ x ≤ r.e) ∧
      si.Pairwise (fun p q => p.2 < q.1) := by
  obtain ⟨si, heq, hmem, huni, hpw⟩ :=
    splitF_spec (M + 1) r.s r.e 0 M (by omega) (by omega) (by omega) (by omega)
  refine ⟨si, heq, by rw [recEntries, heq]; rfl, ?_, ?_, hpw⟩
  · intro p hp
    obtain ⟨c1, c2, c3, c4, c5, c6⟩ := hmem p hp
    exact ⟨c1, c2, c4, c5, c6⟩
  · intro x
    rw [huni x]
    omega

/-- Entries of records with distinct `(owner, level)` have distinct keys. -/
theorem entries_disjoint (M : Nat) (r1 r2 : IRec)
    (hne : r1.owner ≠ r2.owner ∨ r1.lvl ≠ r2.lvl)
    (es1 es2 : List (List Nat × List Nat))
    (h1 : recEntries M r1 = some es1) (h2 : recEntries M r2 = some es2) :
    ∀ kv1 ∈ es1, ∀ kv2 ∈ es2, kv1.1 ≠ kv2.1 := by
  obtain ⟨si1, _, hes1⟩ := recEntries_eq M r1 es1 h1
  obtain ⟨si2, _, hes2⟩ := recEntries_eq M r2 es2 h2
  subst hes1; subst hes2
  intro kv1 hkv1 kv2 hkv2 hkeq
  have holne : ¬(r1.owner = r2.owner ∧ r1.lvl = r2.lvl) := by
    rintro ⟨a, b⟩
    rcases hne with h | h
    · exact h a
    · exact h b
  rcases List.mem_append.mp hkv1 with hm1 | hm1 <;>
    rcases List.mem_append.mp hkv2 with hm2 | hm2
  · obtain ⟨p1, _, hp1⟩ := List.mem_map.mp hm1
    obtain ⟨p2, _, hp2⟩ := List.mem_map.mp hm2
    rw [← hp1, ← hp2] at hkeq
    simp only [segEntry] at hkeq
    rcases segKey_eq_owner_level _ _ _ _ _ _ _ _ hkeq with ⟨ho, hl⟩
    exact holne ⟨ho, hl⟩
  · obtain ⟨p1, _, hp1⟩ := List.mem_map.mp hm1
    rw [← hp1] at hkeq
    simp only [List.mem_cons, List.not_mem_nil, or_false] at hm2
    rcases hm2 with hm2 | hm2 <;> rw [hm2] at hkeq <;>
      exact segKey_ne_epKey _ _ _ _ _ _ _ _ hkeq
  · obtain ⟨p2, _, hp2⟩ := List.mem_map.mp hm2
    rw [← hp2] at hkeq
    simp only [List.mem_cons, List.not_mem_nil, or_false] at hm1
    rcases hm1 with hm1 | hm1 <;> rw [hm1] at hkeq <;>
      exact segKey_ne_epKey _ _ _ _ _ _ _ _ hkeq.symm
  · simp only [List.mem_cons, List.not_mem_nil, or_false] at hm1 hm2
    rcases hm1 with hm1 | hm1 <;> rcases hm2 with hm2 | hm2 <;>
      rw [hm1] at hkeq <;> rw [hm2] at hkeq <;>
      simp only [startEntry, endEntry] at hkeq <;>
      rcases epKey_eq_owner_level _ _ _ _ _ _ _ _ hkeq with ⟨ho, hl, _⟩ <;>
      exact holne ⟨ho, hl⟩

/-- The keys staged by one `put`/`delete` are pairwise distinct. -/
theorem entKeys_nodup (M : Nat) (r : IRec) (h1 : r.s ≤ r.e) (h2 : r.e ≤ M)
    (hM : M < 256 ^ 8) (es : List (List Nat × List Nat))
    (h : recEntries M r = some es) : (es.map Prod.fst).Nodup := by
  obtain ⟨si, hsi, _, hmem, _, hpw⟩ := recEntries_of_valid M r h1 h2
  obtain ⟨si2, hsi2, hes⟩ := recEntries_eq M r es h
  rw [hsi] at hsi2
  have hsieq : si2 = si := by injection hsi2.symm
  subst hsieq
  subst hes
  rw [List.map_append, List.map_map]
  rw [List.nodup_append]
  refine ⟨?_, ?_, ?_⟩
  · apply List.Nodup.map_on
    · intro x hx y hy hk
      obtain ⟨_, _, hx12, hx2M, _⟩ := hmem x hx
      obtain ⟨_, _, hy12, hy2M, _⟩ := hmem y hy
      simp only [segEntry] at hk
      rcases segKey_inj_full x.1 x.2 r.lvl y.1 y.2 r.lvl r.owner r.owner
        (by omega) (by omega) (by omega) (by omega) hk with ⟨e1, e2, _, _⟩
      exact Prod.ext e1 e2
    · refine List.Pairwise.imp_of_mem ?_ hpw
      intro a b ha hb hab
      obtain ⟨_, _, ha12, _, _⟩ := hmem a ha
      intro heq
      rw [heq] at ha12 hab
      omega
  · simp only [List.map_cons, List.map_nil, startEntry, endEntry, List.nodup_cons,
      List.mem_singleton, List.not_mem_nil, not_false_iff, List.nodup_nil, and_true]
    intro hk
    rcases epKey_eq_owner_level _ _ _ _ _ _ _ _ hk with ⟨_, _, hkind⟩
    simp [TYPE_START, TYPE_END] at hkind
  · intro k hk1 hk2
    obtain ⟨p, hp, hpe⟩ := List.mem_map.mp hk1
    simp only [List.map_cons, List.map_nil, List.mem_cons, List.not_mem_nil,
      or_false, startEntry, endEntry] at hk2
    rcases hk2 with hk2 | hk2 <;> rw [← hpe] at hk2 <;>
      exact segKey_ne_epKey _ _ _ _ _ _ _ _ hk2

theorem stPut_some (M : Nat) (r : IRec) (db : List (List Nat × List Nat))
    (h1 : r.s ≤ r.e) (h2 : r.e ≤ M) (hM : M < 256 ^ 8) (hs : DBS db) :
    ∃ es db2, recEntries M r = some es ∧
      stPut M db r.owner r.s r.e r.lvl = some db2 ∧ DBS db2 ∧
      ∀ kv, (kv ∈ db2 ↔ kv ∈ es ∨ (kv ∈ db ∧ kv.1 ∉ es.map Prod.fst)) := by
  obtain ⟨si, hsi, hre, _, _, _⟩ := recEntries_of_valid M r h1 h2
  have hnd := entKeys_nodup M r h1 h2 hM _ hre
  obtain ⟨hsorted, hmem⟩ :=
    applyPuts_mem (si.map (segEntry r) ++ [startEntry r, endEntry r]) db hs hnd
  refine ⟨_, _, hre, ?_, hsorted, hmem⟩
  rw [stPut, show (⟨r.owner, r.s, r.e, r.lvl⟩ : IRec) = r from rfl, hre]
  rfl

theorem stDelete_some (M : Nat) (r : IRec) (db : List (List Nat × List Nat))
    (h1 : r.s ≤ r.e) (h2 : r.e ≤ M) (hs : DBS db) :
    ∃ es db2, recEntries M r = some es ∧
      stDelete M db r.owner r.s r.e r.lvl = some db2 ∧ DBS db2 ∧
      ∀ kv, (kv ∈ db2 ↔ kv ∈ db ∧ kv.1 ∉ es.map Prod.fst) := by
  obtain ⟨si, hsi, hre, _, _, _⟩ := recEntries_of_valid M r h1 h2
  obtain ⟨hsorted, hmem⟩ :=
    applyDels_mem ((si.map (segEntry r) ++ [startEntry r, endEntry r]).map Prod.fst)
      db hs
  have hbatch : ((si.map (segEntry r) ++ [startEntry r, endEntry r]).map
      (fun kv => BOp.bdel kv.1)) =
      (((si.map (segEntry r) ++ [startEntry r, endEntry r]).map Prod.fst).map
        BOp.bdel) := by
    rw [List.map_map]
    rfl
  refine ⟨_, applyBatch db ((si.map (segEntry r) ++ [startEntry r, endEntry r]).map
    (fun kv => BOp.bdel kv.1)), hre, ?_, ?_, ?_⟩
  · rw [stDelete, show (⟨r.owner, r.s, r.e, r.lvl⟩ : IRec) = r from rfl, hre]
    rfl
  · rw [hbatch]; exact hsorted
  · intro kv
    rw [hbatch, hmem kv]

/-- Invariant of a reachable store: sorted, and holding exactly the entries
of the live records, which are valid and pairwise distinct in
`(owner, level)`. -/
def InvDB (M : Nat) (db : List (List Nat × List Nat)) (L : List IRec) : Prop :=
  DBS db ∧
  (∀ r ∈ L, r.s ≤ r.e ∧ r.e ≤ M ∧ r.lvl ≤ MAX_LEVEL) ∧
  L.Pairwise (fun a b => a.owner ≠ b.owner ∨ a.lvl ≠ b.lvl) ∧
  (∀ kv, kv ∈ db ↔ ∃ r ∈ L, ∃ es, recEntries M r = some es ∧ kv ∈ es)

theorem olNe_spec (a b : IRec) :
    olNe a b = true ↔ a.owner ≠ b.owner ∨ a.lvl ≠ b.lvl := by
  simp [olNe, not_and_or]

theorem runHist_inv (M : Nat) (hM : M < 256 ^ 8) :
    ∀ (ops : List HOp) (db : List (List Nat × List Nat)) (L : List IRec),
    InvDB M db L → wfFromB M L ops = true →
    ∃ db2, runHist M db ops = some db2 ∧ InvDB M db2 (liveFrom L ops) := by
  intro ops
  induction ops with
  | nil => intro db L hInv _; exact ⟨db, rfl, hInv⟩
  | cons op t ih =>
    intro db L hInv hwf
    obtain ⟨hs, hvalid, hpw, hagree⟩ := hInv
    cases op with
    | hput r =>
      simp only [wfFromB, Bool.and_eq_true] at hwf
      obtain ⟨⟨hvB, hall⟩, hwt⟩ := hwf
      have hv : r.s ≤ r.e ∧ r.e ≤ M ∧ r.lvl ≤ MAX_LEVEL := by
        simpa [validB, Bool.and_eq_true, decide_eq_true_eq, and_assoc] using hvB
      have hfresh : ∀ r2 ∈ L, r.owner ≠ r2.owner ∨ r.lvl ≠ r2.lvl := by
        intro r2 hr2
        exact (olNe_spec r r2).mp (List.all_eq_true.mp hall r2 hr2)
      have hrnotin : r ∉ L := by
        intro hr
        rcases hfresh r hr with h | h <;> exact h rfl
      obtain ⟨es, db2, hre, hput, hs2, hmem2⟩ := stPut_some M r db hv.1 hv.2.1 hM hs
      have hrun : runHist M db (HOp.hput r :: t) = runHist M db2 t := by
        simp [runHist, hput]
      have hlive : liveFrom L (HOp.hput r :: t) = liveFrom (r :: L) t := by
        simp [liveFrom, hrnotin]
      rw [hrun, hlive]
      apply ih db2 (r :: L) _ hwt
      refine ⟨hs2, ?_, ?_, ?_⟩
      · intro r2 hr2
        rcases List.mem_cons.mp hr2 with he | hm
        · exact he ▸ hv
        · exact hvalid r2 hm
      · rw [List.pairwise_cons]
        exact ⟨hfresh, hpw⟩
      · intro kv
        rw [hmem2 kv]
        constructor
        · rintro (h | ⟨hdb, hnk⟩)
          · exact ⟨r, List.mem_cons_self _ _, es, hre, h⟩
          · obtain ⟨r2, hr2, es2, hre2, hkv2⟩ := (hagree kv).mp hdb
            exact ⟨r2, List.mem_cons_of_mem _ hr2, es2, hre2, hkv2⟩
        · rintro ⟨r2, hr2, es2, hre2, hkv2⟩
          rcases List.mem_cons.mp hr2 with he | hm
          · subst he
            rw [hre] at hre2
            left
            injection hre2 with hre2
            exact hre2 ▸ hkv2
          · right
            refine ⟨(hagree kv).mpr ⟨r2, hm, es2, hre2, hkv2⟩, ?_⟩
            intro hk
            obtain ⟨kv2, hkv2m, hkv2e⟩ := List.mem_map.mp hk
            have hd : r2.owner ≠ r.owner ∨ r2.lvl ≠ r.lvl := by
              rcases hfresh r2 hm with h | h
              · exact Or.inl (Ne.symm h)
              · exact Or.inr (Ne.symm h)
            exact entries_disjoint M r2 r hd es2 es hre2 hre kv hkv2 kv2 hkv2m
              (by rw [hkv2e])
    | hdel r =>
      simp only [wfFromB, Bool.and_eq_true] at hwf
      obtain ⟨⟨hvB, hinL⟩, hwt⟩ := hwf
      have hv : r.s ≤ r.e ∧ r.e ≤ M ∧ r.lvl ≤ MAX_LEVEL := by
        simpa [validB, Bool.and_eq_true, decide_eq_true_eq, and_assoc] using hvB
      have hrin : r ∈ L := of_decide_eq_true hinL
      have hnd : L.Nodup := by
        refine hpw.imp ?_
        intro a b hab heq
        rcases hab with h | h <;> exact h (by rw [heq])
      obtain ⟨es, db2, hre, hdel, hs2, hmem2⟩ := stDelete_some M r db hv.1 hv.2.1 hs
      have hrun : runHist M db (HOp.hdel r :: t) = runHist M db2 t := by
        simp [runHist, hdel]
      rw [hrun]
      show ∃ db3, _ ∧ InvDB M db3 (liveFrom (L.erase r) t)
      apply ih db2 (L.erase r) _ hwt
      refine ⟨hs2, ?_, ?_, ?_⟩
      · intro r2 hr2
        exact hvalid r2 (List.mem_of_mem_erase hr2)
      · exact hpw.sublist (List.erase_sublist r L)
      · intro kv
        rw [hmem2 kv]
        constructor
        · rintro ⟨hdb, hnk⟩
          obtain ⟨r2, hr2, es2, hre2, hkv2⟩ := (hagree kv).mp hdb
          have hr2ne : r2 ≠ r := by
            intro he
            subst he
            rw [hre] at hre2
            injection hre2 with hre2
            subst hre2
            exact hnk (List.mem_map.mpr ⟨kv, hkv2, rfl⟩)
          exact ⟨r2, (hnd.mem_erase_iff.mpr ⟨hr2ne, hr2⟩), es2, hre2, hkv2⟩
        · rintro ⟨r2, hr2, es2, hre2, hkv2⟩
          have hr2ne : r2 ≠ r := (hnd.mem_erase_iff.mp hr2).1
          have hr2in : r2 ∈ L := (hnd.mem_erase_iff.mp hr2).2
          refine ⟨(hagree kv).mpr ⟨r2, hr2in, es2, hre2, hkv2⟩, ?_⟩
          intro hk
          obtain ⟨kv2, hkv2m, hkv2e⟩ := List.mem_map.mp hk
          have hsym : Symmetric (fun a b : IRec =>
              a.owner ≠ b.owner ∨ a.lvl ≠ b.lvl) := by
            intro a b hab
            rcases hab with h | h
            · exact Or.inl (Ne.symm h)
            · exact Or.inr (Ne.symm h)
          have hd := List.Pairwise.forall hsym hpw hr2in hrin hr2ne
          exact entries_disjoint M r2 r hd es2 es hre2 hre kv hkv2 kv2 hkv2m
            (by rw [hkv2e])

theorem decodeSegEntry_segEntry (r : IRec) (p : Nat × Nat)
    (hs : r.s < 256 ^ 8) (he : r.e < 256 ^ 8) :
    decodeSegEntry (segEntry r p) = (r.owner, r.lvl, r.s, r.e) := by
  simp only [decodeSegEntry, segEntry, segVal]
  rw [segKey_drop18, segKey_getD17]
  rw [List.take_left' (beBytes_length 8 r.s), List.drop_left' (beBytes_length 8 r.s)]
  rw [List.take_of_length_le (by rw [beBytes_length])]
  rw [unpackBE_beBytes 8 r.s hs, unpackBE_beBytes 8 r.e he]

theorem decodeEp_epKey (v lvl kind : Nat) (o : List Nat) (hv : v < 256 ^ 8) :
    decodeEp (epKey v lvl kind o) = (v, lvl, kind == TYPE_START, o) := by
  simp only [decodeEp]
  rw [epKey_value v lvl kind o hv, epKey_getD9, epKey_getD10, epKey_drop11]

/-- Classification of a reachable store's entries: each belongs to a live
record, as a segment entry at a decomposition node or as one of the two
boundary markers. -/
theorem db_entry_cases (M : Nat) (db : List (List Nat × List Nat))
    (L : List IRec) (hInv : InvDB M db L) (kv : List Nat × List Nat)
    (hkv : kv ∈ db) :
    ∃ r ∈ L, r.s ≤ r.e ∧ r.e ≤ M ∧ r.lvl ≤ MAX_LEVEL ∧
      ∃ si, splitF (M + 1) r.s r.e 0 M = some si ∧
      ((∃ pn ∈ si, kv = segEntry r pn) ∨ kv = startEntry r ∨ kv = endEntry r) := by
  obtain ⟨_, hvalid, _, hagree⟩ := hInv
  obtain ⟨r, hr, es, hre, hkves⟩ := (hagree kv).mp hkv
  obtain ⟨si, hsi, hes⟩ := recEntries_eq M r es hre
  subst hes
  obtain ⟨hv1, hv2, hv3⟩ := hvalid r hr
  refine ⟨r, hr, hv1, hv2, hv3, si, hsi, ?_⟩
  rcases List.mem_append.mp hkves with h | h
  · obtain ⟨pn, hpn, hpe⟩ := List.mem_map.mp h
    exact Or.inl ⟨pn, hpn, hpe.symm⟩
  · simp only [List.mem_cons, List.not_mem_nil, or_false] at h
    exact Or.inr h

theorem coverPath_eq (M v : Nat) (hM : 1 ≤ M) (hv : v ≤ M) :
    coverPath M v = (0, M) :: coverPathF (2 * M) v 0 M := by
  rw [coverPath]
  show coverPathF (2 * M + 1) v 0 (2 * M) = _
  simp only [coverPathF]
  have hmid : (0 + 2 * M) / 2 = M := by omega
  rw [hmid, if_pos hv, if_neg (by omega)]

theorem coverPath_mem (M v : Nat) (hM : 1 ≤ M) (hv : v ≤ M) :
    ∀ n ∈ coverPath M v, Canon M n ∧ n.1 ≤ v ∧ v ≤ n.2 := by
  rw [coverPath_eq M v hM hv]
  intro n hn
  rcases List.mem_cons.mp hn with h | h
  · subst h
    exact ⟨CanonIn.refl _, Nat.zero_le v, hv⟩
  · obtain ⟨hc, h1, h2, _⟩ :=
      coverPathF_mem (2 * M) v 0 M (by omega) (by omega) hv (by omega) n h
    exact ⟨hc, h1, h2⟩

theorem coverPath_complete (M v : Nat) (hM : 1 ≤ M) (hv : v ≤ M) :
    ∀ n, Canon M n → n.1 ≤ v → v ≤ n.2 → n ∈ coverPath M v := by
  rw [coverPath_eq M v hM hv]
  intro n hc h1 h2
  by_cases he : n = (0, M)
  · exact he ▸ List.mem_cons_self _ _
  · exact List.mem_cons_of_mem _
      (coverPathF_complete (2 * M) v 0 M (by omega) (by omega) hv (by omega)
        n hc he h1 h2)

theorem coverPath_nodup (M v : Nat) (hM : 1 ≤ M) (hv : v ≤ M) :
    (coverPath M v).Pairwise (fun a b => a ≠ b) := by
  rw [coverPath_eq M v hM hv]
  rw [List.pairwise_cons]
  constructor
  · intro n hn
    have hb := (coverPathF_mem (2 * M) v 0 M (by omega) (by omega) hv
      (by omega) n hn).2.2.2
    intro he
    rw [← he] at hb
    omega
  · refine List.Pairwise.imp ?_
      (coverPathF_pairwise (2 * M) v 0 M (by omega) (by omega) hv (by omega))
    intro a b hab heq
    rw [heq] at hab
    omega

/-- An entry of a reachable store lying strictly inside the scan window of a
node is a segment entry of a live record whose decomposition contains
exactly that node. -/
theorem cover_entry_at_node (M : Nat) (db : List (List Nat × List Nat))
    (L : List IRec) (hInv : InvDB M db L) (hM : M < 256 ^ 8) (n : Nat × Nat)
    (hn1 : n.1 < 256 ^ 8) (hn2 : n.2 < 256 ^ 8) (kv : List Nat × List Nat)
    (hkv : kv ∈ db) (hr : inNodeRange n.1 n.2 kv.1 = true) :
    ∃ r ∈ L, r.s ≤ r.e ∧ r.e ≤ M ∧ r.lvl ≤ MAX_LEVEL ∧
      ∃ si, splitF (M + 1) r.s r.e 0 M = some si ∧ n ∈ si ∧ kv = segEntry r n := by
  obtain ⟨r, hrL, hv1, hv2, hv3, si, hsi, hcase⟩ := db_entry_cases M db L hInv kv hkv
  rcases hcase with ⟨pn, hpn, hpe⟩ | h | h
  · subst hpe
    obtain ⟨si2, heq2, hmem2, _, _⟩ :=
      splitF_spec (M + 1) r.s r.e 0 M (by omega) (by omega) (by omega) (by omega)
    rw [hsi] at heq2
    injection heq2 with heq2
    subst heq2
    obtain ⟨hb1, hb2, _, hb4, hb5, _⟩ := hmem2 pn hpn
    simp only [segEntry] at hr
    rcases (inNodeRange_segKey n.1 n.2 pn.1 pn.2 r.lvl r.owner hn1 hn2
      (by omega) (by omega) hv3).mp hr with ⟨e1, e2⟩
    have hpn_eq : pn = n := Prod.ext e1 e2
    subst hpn_eq
    exact ⟨r, hrL, hv1, hv2, hv3, si, hsi, hpn, rfl⟩
  · subst h
    simp only [startEntry] at hr
    rw [inNodeRange_epKey] at hr
    exact absurd hr (by simp)
  · subst h
    simp only [endEntry] at hr
    rw [inNodeRange_epKey] at hr
    exact absurd hr (by simp)

/-- Records of a reachable store are determined by their `(owner, level)`. -/
theorem live_unique (L : List IRec)
    (hpw : L.Pairwise (fun a b => a.owner ≠ b.owner ∨ a.lvl ≠ b.lvl))
    (r1 r2 : IRec) (h1 : r1 ∈ L) (h2 : r2 ∈ L)
    (ho : r1.owner = r2.owner) (hl : r1.lvl = r2.lvl) : r1 = r2 := by
  by_contra hne
  have hsym : Symmetric (fun a b : IRec => a.owner ≠ b.owner ∨ a.lvl ≠ b.lvl) := by
    intro a b hab
    rcases hab with h | h
    · exact Or.inl (Ne.symm h)
    · exact Or.inr (Ne.symm h)
  rcases List.Pairwise.forall hsym hpw h1 h2 hne with h | h
  · exact h ho
  · exact h hl

/-- Correctness of the stabbing query on a reachable store: `cover(p)`
yields `(owner, level, start, end)` exactly once for every live record
containing `p`, and nothing else. -/
theorem cover_iff (M : Nat) (hM1 : 1 ≤ M) (hM : M < 256 ^ 8)
    (db : List (List Nat × List Nat)) (L : List IRec) (hInv : InvDB M db L)
    (p : Nat) (hp : p ≤ M) :
    (∀ t, t ∈ cover M db p ↔
      ∃ r ∈ L, t = (r.owner, r.lvl, r.s, r.e) ∧ r.s ≤ p ∧ p ≤ r.e) ∧
    (cover M db p).Nodup := by
  have hnodebound : ∀ n ∈ coverPath M p, n.1 ≤ n.2 ∧ n.2 ≤ M ∧ n.1 ≤ p ∧ p ≤ n.2 := by
    intro n hn
    obtain ⟨hc, h1, h2⟩ := coverPath_mem M p hM1 hp n hn
    obtain ⟨hb1, hb2, hb3⟩ := canonIn_bounds (0, M) n hc (by omega)
    exact ⟨hb2, hb3, h1, h2⟩
  have hInv2 := hInv
  obtain ⟨hs, hvalid, hpw, hagree⟩ := hInv2
  have hmemchar : ∀ t, t ∈ cover M db p ↔
      ∃ n ∈ coverPath M p, ∃ kv ∈ db, inNodeRange n.1 n.2 kv.1 = true ∧
        decodeSegEntry kv = t := by
    intro t
    rw [cover, List.mem_flatMap]
    constructor
    · rintro ⟨n, hn, ht⟩
      obtain ⟨kv, hkv, hdec⟩ := List.mem_map.mp ht
      rw [List.mem_reverse, List.mem_filter] at hkv
      exact ⟨n, hn, kv, hkv.1, hkv.2, hdec⟩
    · rintro ⟨n, hn, kv, hkv, hrange, hdec⟩
      refine ⟨n, hn, List.mem_map.mpr ⟨kv, ?_, hdec⟩⟩
      rw [List.mem_reverse, List.mem_filter]
      exact ⟨hkv, hrange⟩
  constructor
  · intro t
    rw [hmemchar t]
    constructor
    · rintro ⟨n, hn, kv, hkv, hrange, hdec⟩
      obtain ⟨hb12, hb2M, hnp1, hnp2⟩ := hnodebound n hn
      obtain ⟨r, hrL, hv1, hv2, hv3, si, hsi, hnsi, hkve⟩ :=
        cover_entry_at_node M db L hInv hM n (by omega) (by omega) kv hkv hrange
      subst hkve
      rw [decodeSegEntry_segEntry r n (by omega) (by omega)] at hdec
      obtain ⟨si2, heq2, hmem2, _, _⟩ :=
        splitF_spec (M + 1) r.s r.e 0 M (by omega) (by omega) (by omega) (by omega)
      rw [hsi] at heq2
      injection heq2 with heq2
      subst heq2
      obtain ⟨hc1, hc2, _, _, _, _⟩ := hmem2 n hnsi
      exact ⟨r, hrL, hdec.symm, by omega, by omega⟩
    · rintro ⟨r, hrL, ht, hp1, hp2⟩
      obtain ⟨hv1, hv2, hv3⟩ := hvalid r hrL
      obtain ⟨si, hsi, hre, hmem, huni, _⟩ := recEntries_of_valid M r hv1 hv2
      obtain ⟨pn, hpn, hpn1, hpn2⟩ := (huni p).mpr ⟨hp1, hp2⟩
      obtain ⟨_, _, _, _, hcanon⟩ := hmem pn hpn
      refine ⟨pn, coverPath_complete M p hM1 hp pn hcanon hpn1 hpn2,
        segEntry r pn, ?_, ?_, ?_⟩
      · refine (hagree (segEntry r pn)).mpr ⟨r, hrL, _, hre, ?_⟩
        exact List.mem_append.mpr (Or.inl (List.mem_map.mpr ⟨pn, hpn, rfl⟩))
      · obtain ⟨_, _, _, hb4, _⟩ := hmem pn hpn
        simp only [segEntry]
        exact (inNodeRange_segKey pn.1 pn.2 pn.1 pn.2 r.lvl r.owner
          (by omega) (by omega) (by omega) (by omega) hv3).mpr ⟨rfl, rfl⟩
      · rw [decodeSegEntry_segEntry r pn (by omega) (by omega), ht]
  · rw [cover, List.nodup_flatMap]
    have hdbnodup : db.Nodup := by
      refine hs.imp ?_
      intro a b hab heq
      rw [heq, byteLtB_irrefl] at hab
      exact absurd hab (by simp)
    constructor
    · intro n hn
      obtain ⟨hb12, hb2M, hnp1, hnp2⟩ := hnodebound n hn
      apply List.Nodup.map_on
      · intro kv1 hkv1 kv2 hkv2 hdec
        rw [List.mem_reverse, List.mem_filter] at hkv1 hkv2
        obtain ⟨r1, hr1L, hv11, hv12, hv13, si1, hsi1, hnsi1, hkve1⟩ :=
          cover_entry_at_node M db L hInv hM n (by omega) (by omega)
            kv1 hkv1.1 hkv1.2
        obtain ⟨r2, hr2L, hv21, hv22, hv23, si2, hsi2, hnsi2, hkve2⟩ :=
          cover_entry_at_node M db L hInv hM n (by omega) (by omega)
            kv2 hkv2.1 hkv2.2
        subst hkve1; subst hkve2
        rw [decodeSegEntry_segEntry r1 n (by omega) (by omega),
          decodeSegEntry_segEntry r2 n (by omega) (by omega)] at hdec
        have hr12 : r1 = r2 := by
          apply live_unique L hpw r1 r2 hr1L hr2L
          · exact congrArg (fun q => q.1) hdec
          · exact congrArg (fun q => q.2.1) hdec
        rw [hr12]
      · exact List.nodup_reverse.mpr (hdbnodup.filter _)
    · refine List.Pairwise.imp_of_mem ?_ (coverPath_nodup M p hM1 hp)
      intro n m hnp hmp hnm
      intro t htn htm
      obtain ⟨kv1, hkv1, hdec1⟩ := List.mem_map.mp htn
      obtain ⟨kv2, hkv2, hdec2⟩ := List.mem_map.mp htm
      rw [List.mem_reverse, List.mem_filter] at hkv1 hkv2
      obtain ⟨hb12, hb2M, hnp1, hnp2⟩ := hnodebound n hnp
      obtain ⟨hc12, hc2M, hmp1, hmp2⟩ := hnodebound m hmp
      obtain ⟨r1, hr1L, hv11, hv12, hv13, si1, hsi1, hnsi1, hkve1⟩ :=
        cover_entry_at_node M db L hInv hM n (by omega) (by omega)
          kv1 hkv1.1 hkv1.2
      obtain ⟨r2, hr2L, hv21, hv22, hv23, si2, hsi2, hnsi2, hkve2⟩ :=
        cover_entry_at_node M db L hInv hM m (by omega) (by omega)
          kv2 hkv2.1 hkv2.2
      subst hkve1; subst hkve2
      rw [decodeSegEntry_segEntry r1 n (by omega) (by omega)] at hdec1
      rw [decodeSegEntry_segEntry r2 m (by omega) (by omega)] at hdec2
      have hdec := hdec1.trans hdec2.symm
      have hr12 : r1 = r2 := by
        apply live_unique L hpw r1 r2 hr1L hr2L
        · exact congrArg (fun q => q.1) hdec
        · exact congrArg (fun q => q.2.1) hdec
      subst hr12
      rw [hsi1] at hsi2
      injection hsi2 with hsi2
      subst hsi2
      obtain ⟨si3, heq3, _, _, hpw3⟩ :=
        splitF_spec (M + 1) r1.s r1.e 0 M (by omega) (by omega) (by omega)
          (by omega)
      rw [hsi1] at heq3
      injection heq3 with heq3
      subst heq3
      have hdisj : n.2 < m.1 ∨ m.2 < n.1 := by
        have hsym : Symmetric (fun a b : Nat × Nat => a.2 < b.1 ∨ b.2 < a.1) := by
          intro a b hab
          rcases hab with h | h
          · exact Or.inr h
          · exact Or.inl h
        exact List.Pairwise.forall hsym (hpw3.imp (fun h => Or.inl h))
          hnsi1 hnsi2 hnm
      omega

/-- Every key of a reachable store is a full segment key or a full endpoint
key of a live record, with in-range fields. -/
theorem db_key_cases (M : Nat) (db : List (List Nat × List Nat))
    (L : List IRec) (hInv : InvDB M db L) (k : List Nat)
    (hk : k ∈ db.map Prod.fst) :
    (∃ l u lvl o, l ≤ M ∧ u ≤ M ∧ lvl ≤ MAX_LEVEL ∧ k = segKey l u lvl o) ∨
    (∃ v lvl kind o, v ≤ M ∧ lvl ≤ MAX_LEVEL ∧ k = epKey v lvl kind o) := by
  obtain ⟨kv, hkv, hke⟩ := List.mem_map.mp hk
  obtain ⟨r, hrL, hv1, hv2, hv3, si, hsi, hcase⟩ := db_entry_cases M db L hInv kv hkv
  obtain ⟨si2, heq2, hmem2, _, _⟩ :=
    splitF_spec (M + 1) r.s r.e 0 M (by omega) (by omega) (by omega) (by omega)
  rw [hsi] at heq2
  injection heq2 with heq2
  subst heq2
  rcases hcase with ⟨pn, hpn, hpe⟩ | h | h
  · obtain ⟨_, _, _, _, hb5, _⟩ := hmem2 pn hpn
    left
    refine ⟨pn.1, pn.2, r.lvl, r.owner, by omega, by omega, hv3, ?_⟩
    rw [← hke, hpe]
    rfl
  · right
    refine ⟨r.s, r.lvl, TYPE_START, r.owner, by omega, hv3, ?_⟩
    rw [← hke, h]
    rfl
  · right
    refine ⟨r.e, r.lvl, TYPE_END, r.owner, by omega, hv3, ?_⟩
    rw [← hke, h]
    rfl

theorem inIterRange_of_ne (ks ke k : List Nat) (incS incE : Bool)
    (h1 : k ≠ ks) (h2 : k ≠ ke) :
    inIterRange ks ke incS incE k = (byteLtB ks k && byteLtB k ke) := by
  have e1 : (k == ks) = false := beq_eq_false_iff_ne.mpr h1
  have e2 : (k == ke) = false := beq_eq_false_iff_ne.mpr h2
  simp [inIterRange, e1, e2]

/-- Within `query_endpoints`' scan window over a reachable store, only full
endpoint keys appear, and the flag-carrying comparisons never trigger
(the bounds are 9 and 10 bytes long, real keys at least 11). -/
theorem db_key_not_bound (M : Nat) (db : List (List Nat × List Nat))
    (L : List IRec) (hInv : InvDB M db L) (k : List Nat)
    (hk : k ∈ db.map Prod.fst) (a : Nat) (b : Nat) (lvl2 : Nat) :
    k ≠ epKeyP a ∧ k ≠ epKeyL b lvl2 := by
  have hlen : 11 ≤ k.length := by
    rcases db_key_cases M db L hInv k hk with ⟨l, u, lvl, o, _, _, _, hkk⟩ |
      ⟨v, lvl, kind, o, _, _, hkk⟩
    · rw [hkk, segKey_length]; omega
    · rw [hkk, epKey_length]; omega
  constructor
  · intro he
    rw [he, epKeyP_length] at hlen
    omega
  · intro he
    rw [he, epKeyL_length] at hlen
    omega

theorem queryEndpoints_mem (M : Nat) (db : List (List Nat × List Nat))
    (st sp : Option Nat) (rev incS incE : Bool) (t : Nat × Nat × Bool × List Nat) :
    t ∈ queryEndpoints M db st sp rev incS incE ↔
      ∃ k ∈ db.map Prod.fst,
        inIterRange (epKeyP (match st with | none => 0 | some v => v))
          (match sp with
            | none => epKeyL M (MAX_LEVEL + 1)
            | some v => epKeyL v (MAX_LEVEL + 1)) incS incE k = true ∧
        decodeEp k = t := by
  unfold queryEndpoints
  cases rev with
  | false =>
    rw [if_neg (by simp)]
    constructor
    · intro h
      obtain ⟨k, hk, hdec⟩ := List.mem_map.mp h
      rw [List.mem_filter] at hk
      exact ⟨k, hk.1, hk.2, hdec⟩
    · rintro ⟨k, hk, hr, hdec⟩
      exact List.mem_map.mpr ⟨k, List.mem_filter.mpr ⟨hk, hr⟩, hdec⟩
  | true =>
    rw [if_pos rfl]
    constructor
    · intro h
      obtain ⟨k, hk, hdec⟩ := List.mem_map.mp h
      rw [List.mem_reverse, List.mem_filter] at hk
      exact ⟨k, hk.1, hk.2, hdec⟩
    · rintro ⟨k, hk, hr, hdec⟩
      refine List.mem_map.mpr ⟨k, ?_, hdec⟩
      rw [List.mem_reverse, List.mem_filter]
      exact ⟨hk, hr⟩

theorem byteLtB_epP_seg (v : Nat) (l u lvl : Nat) (o : List Nat) :
    byteLtB (epKeyP v) (segKey l u lvl o) = false := by
  have h := byteLtB_ep_seg v [] l u lvl o
  rw [List.append_nil] at h
  exact h

/-- Keys passing a `query_endpoints` filter on a reachable store are full
endpoint keys of live records. -/
theorem filter_key_ep (M : Nat) (db : List (List Nat × List Nat))
    (L : List IRec) (hInv : InvDB M db L) (a b c : Nat) (iS iE : Bool)
    (k : List Nat)
    (hk : k ∈ (db.map Prod.fst).filter (inIterRange (epKeyP a) (epKeyL b c) iS iE)) :
    k ∈ db.map Prod.fst ∧
    ∃ v lvl kind o, v ≤ M ∧ lvl ≤ MAX_LEVEL ∧ k = epKey v lvl kind o := by
  rw [List.mem_filter] at hk
  obtain ⟨hkm, hkr⟩ := hk
  refine ⟨hkm, ?_⟩
  rcases db_key_cases M db L hInv k hkm with ⟨l, u, lvl, o, _, _, _, hkk⟩ | hep
  · exfalso
    subst hkk
    rw [inIterRange] at hkr
    have e1 : byteLtB (epKeyP a) (segKey l u lvl o) = false := byteLtB_epP_seg a l u lvl o
    have e2 : (segKey l u lvl o == epKeyP a) = false := by
      apply beq_eq_false_iff_ne.mpr
      intro he
      have := congrArg List.length he
      rw [segKey_length, epKeyP_length] at this
      omega
    rw [e1, e2] at hkr
    simp at hkr
  · exact hep

theorem marker_inIter (a w v lvl kind : Nat) (o : List Nat)
    (ha : a < 256 ^ 8) (hw : w < 256 ^ 8) (hv : v < 256 ^ 8)
    (hlvl : lvl ≤ MAX_LEVEL) (h1 : a ≤ v) (h2 : v ≤ w) (iS iE : Bool) :
    inIterRange (epKeyP a) (epKeyL w (MAX_LEVEL + 1)) iS iE
      (epKey v lvl kind o) = true := by
  rw [inIterRange, epKey_lower_bound a v lvl kind o ha hv h1,
    epKey_upper_bound w v lvl kind o hw hv h2 hlvl]
  rfl

/-- Ordering of `query_endpoints` output on a reachable store: values are
non-decreasing in iteration order, non-increasing when reversed. -/
theorem queryEndpoints_ordered (M : Nat) (hM : M < 256 ^ 8)
    (db : List (List Nat × List Nat)) (L : List IRec) (hInv : InvDB M db L)
    (a b c : Nat) (iS iE : Bool) :
    List.Pairwise (fun k1 k2 => unpackBE ((k1.drop 1).take 8) ≤
        unpackBE ((k2.drop 1).take 8))
      ((db.map Prod.fst).filter (inIterRange (epKeyP a) (epKeyL b c) iS iE)) := by
  have hs := hInv.1
  have hkeys : (db.map Prod.fst).Pairwise (fun k1 k2 => byteLtB k1 k2 = true) := by
    rw [List.pairwise_map]
    exact hs
  have hfil := hkeys.filter (inIterRange (epKeyP a) (epKeyL b c) iS iE)
  refine List.Pairwise.imp_of_mem ?_ hfil
  intro k1 k2 h1 h2 hlt
  obtain ⟨_, v1, lvl1, kind1, o1, hv1, _, he1⟩ :=
    filter_key_ep M db L hInv a b c iS iE k1 h1
  obtain ⟨_, v2, lvl2, kind2, o2, hv2, _, he2⟩ :=
    filter_key_ep M db L hInv a b c iS iE k2 h2
  subst he1; subst he2
  have hle := epKey_lt_value v1 lvl1 kind1 v2 lvl2 kind2 o1 o2
    (by omega) (by omega) hlt
  rw [epKey_value v1 lvl1 kind1 o1 (by omega), epKey_value v2 lvl2 kind2 o2 (by omega)]
  exact hle

/-- Minimality of the canonical decomposition: no set of canonical nodes
with union exactly `[s, e]` has fewer nodes than `_split_interval` returns. -/
theorem split_minimal (M s e : Nat) (hse : s ≤ e) (heM : e ≤ M)
    (si : List (Nat × Nat)) (hsi : splitF (M + 1) s e 0 M = some si)
    (S : Finset (Nat × Nat)) (hCanon : ∀ p ∈ S, Canon M p)
    (hcover : ∀ x : Nat, (∃ p ∈ S, p.1 ≤ x ∧ x ≤ p.2) ↔ s ≤ x ∧ x ≤ e) :
    si.length ≤ S.card := by
  obtain ⟨si2, heq2, hmem, huni, hpw⟩ :=
    splitF_spec (M + 1) s e 0 M (by omega) (by omega) (by omega) (by omega)
  rw [hsi] at heq2
  injection heq2 with heq2
  subst heq2
  have huniq : ∀ (x : Nat) (R1 R2 : Nat × Nat), R1 ∈ si → R2 ∈ si →
      R1.1 ≤ x → x ≤ R1.2 → R2.1 ≤ x → x ≤ R2.2 → R1 = R2 := by
    intro x R1 R2 h1 h2 a1 a2 b1 b2
    by_contra hne
    have hsym : Symmetric (fun a b : Nat × Nat => a.2 < b.1 ∨ b.2 < a.1) := by
      intro a b hab
      rcases hab with h | h
      · exact Or.inr h
      · exact Or.inl h
    rcases List.Pairwise.forall hsym (hpw.imp (fun h => Or.inl h)) h1 h2 hne
      with h | h <;> omega
  have hsub : ∀ p ∈ S, ∀ R ∈ si, p.1 ≤ R.1 → R.1 ≤ p.2 →
      R.1 ≤ p.1 ∧ p.2 ≤ R.2 := by
    intro p hp R hR hx1 hx2
    have hcan := hCanon p hp
    obtain ⟨_, hp12, hpM⟩ := canonIn_bounds (0, M) p hcan (by omega)
    have hps : s ≤ p.1 ∧ p.1 ≤ e := (hcover p.1).mp ⟨p, hp, le_refl _, hp12⟩
    have hpe : s ≤ p.2 ∧ p.2 ≤ e := (hcover p.2).mp ⟨p, hp, hp12, le_refl _⟩
    obtain ⟨R2, hR2, hc1, hc2⟩ := splitF_embed (M + 1) s e 0 M (by omega)
      (by omega) (by omega) (by omega) p.1 p.2
      (by rw [show ((p.1 : Nat), (p.2 : Nat)) = p from rfl]; exact hcan)
      hps.1 hpe.2 si hsi
    obtain ⟨_, _, _, hRa, _, _⟩ := hmem R hR
    obtain ⟨_, _, _, hR2a, _, _⟩ := hmem R2 hR2
    have hReq : R2 = R := huniq R.1 R2 R hR2 hR (by omega) (by omega)
      (le_refl _) hRa
    rw [hReq] at hc1 hc2
    exact ⟨hc1, hc2⟩
  have hsinodup : si.Nodup := by
    refine List.Pairwise.imp_of_mem ?_ hpw
    intro a b ha hb hab heq
    obtain ⟨_, _, _, ha12, _, _⟩ := hmem a ha
    rw [heq] at ha12 hab
    omega
  rw [← List.toFinset_card_of_nodup hsinodup]
  apply Finset.card_le_card_of_injOn
    (fun R => @dite _ (∃ p, p ∈ S ∧ p.1 ≤ R.1 ∧ R.1 ≤ p.2)
      (Classical.propDecidable _) (fun h => h.choose) (fun _ => ((0 : Nat), (0 : Nat))))
  · intro R hR
    rw [List.mem_toFinset] at hR
    obtain ⟨hRs, hRe, hR12, _, _, _⟩ := hmem R hR
    have hex : ∃ p, p ∈ S ∧ p.1 ≤ R.1 ∧ R.1 ≤ p.2 := by
      obtain ⟨p, hp, h1, h2⟩ := (hcover R.1).mpr ⟨by omega, by omega⟩
      exact ⟨p, hp, h1, h2⟩
    simp only [hex, dite_true]
    exact hex.choose_spec.1
  · intro R1 hR1 R2 hR2 hf
    simp only [Finset.coe_sort_coe, Finset.mem_coe, List.mem_toFinset] at hR1 hR2
    obtain ⟨hR1s, hR1e, hR112, _, _, _⟩ := hmem R1 hR1
    obtain ⟨hR2s, hR2e, hR212, _, _, _⟩ := hmem R2 hR2
    have hex1 : ∃ p, p ∈ S ∧ p.1 ≤ R1.1 ∧ R1.1 ≤ p.2 := by
      obtain ⟨p, hp, h1, h2⟩ := (hcover R1.1).mpr ⟨by omega, by omega⟩
      exact ⟨p, hp, h1, h2⟩
    have hex2 : ∃ p, p ∈ S ∧ p.1 ≤ R2.1 ∧ R2.1 ≤ p.2 := by
      obtain ⟨p, hp, h1, h2⟩ := (hcover R2.1).mpr ⟨by omega, by omega⟩
      exact ⟨p, hp, h1, h2⟩
    simp only [hex1, hex2, dite_true] at hf
    obtain ⟨hp1S, hp1a, hp1b⟩ := hex1.choose_spec
    obtain ⟨hp2S, hp2a, hp2b⟩ := hex2.choose_spec
    have hs1 := hsub _ hp1S R1 hR1 hp1a hp1b
    have hs2 := hsub _ hp2S R2 hR2 hp2a hp2b
    rw [hf] at hs1
    obtain ⟨_, hq12, _⟩ := canonIn_bounds (0, M) _ (hCanon _ hp2S) (by omega)
    exact huniq hex2.choose.1 R1 R2 hR1 hR2 (by omega) (by omega) (by omega)
      (by omega)

/-- Two sorted stores with the same entries are equal. -/
theorem sorted_ext : ∀ (l1 l2 : List (List Nat × List Nat)), DBS l1 → DBS l2 →
    (∀ kv, kv ∈ l1 ↔ kv ∈ l2) → l1 = l2 := by
  intro l1
  induction l1 with
  | nil =>
    intro l2 _ _ hm
    cases l2 with
    | nil => rfl
    | cons b t2 => exact absurd ((hm b).mpr (List.mem_cons_self _ _)) (List.not_mem_nil b)
  | cons a t1 ih =>
    intro l2 h1 h2 hm
    cases l2 with
    | nil => exact absurd ((hm a).mp (List.mem_cons_self _ _)) (List.not_mem_nil a)
    | cons b t2 =>
      have hmin1 : ∀ p ∈ t1, byteLtB a.1 p.1 = true := (List.pairwise_cons.mp h1).1
      have hmin2 : ∀ p ∈ t2, byteLtB b.1 p.1 = true := (List.pairwise_cons.mp h2).1
      have hab : a = b := by
        rcases List.mem_cons.mp ((hm a).mp (List.mem_cons_self _ _)) with h | h
        · exact h
        · rcases List.mem_cons.mp ((hm b).mpr (List.mem_cons_self _ _)) with h3 | h3
          · exact h3.symm
          · have c1 := hmin2 a h
            have c2 := hmin1 b h3
            have := byteLtB_trans _ _ _ c1 c2
            rw [byteLtB_irrefl] at this
            exact absurd this (by simp)
      subst hab
      have htail : ∀ kv, kv ∈ t1 ↔ kv ∈ t2 := by
        intro kv
        constructor
        · intro h
          rcases List.mem_cons.mp ((hm kv).mp (List.mem_cons_of_mem _ h)) with h3 | h3
          · have := hmin1 kv h
            rw [h3, byteLtB_irrefl] at this
            exact absurd this (by simp)
          · exact h3
        · intro h
          rcases List.mem_cons.mp ((hm kv).mpr (List.mem_cons_of_mem _ h)) with h3 | h3
          · have := hmin2 kv h
            rw [h3, byteLtB_irrefl] at this
            exact absurd this (by simp)
          · exact h3
      rw [ih t2 (List.pairwise_cons.mp h1).2 (List.pairwise_cons.mp h2).2 htail]

/-- Insert-then-delete of the identical tuple restores the exact store,
provided none of the record's keys were already present. -/
theorem put_delete_roundtrip_core (M : Nat) (r : IRec)
    (db : List (List Nat × List Nat)) (h1 : r.s ≤ r.e) (h2 : r.e ≤ M)
    (hM : M < 256 ^ 8) (hs : DBS db) (es : List (List Nat × List Nat))
    (hre : recEntries M r = some es)
    (hfresh : ∀ k ∈ es.map Prod.fst, k ∉ db.map Prod.fst) :
    ∃ db1 db2, stPut M db r.owner r.s r.e r.lvl = some db1 ∧
      stDelete M db1 r.owner r.s r.e r.lvl = some db2 ∧ db2 = db := by
  obtain ⟨es1, db1, hre1, hput, hs1, hmem1⟩ := stPut_some M r db h1 h2 hM hs
  rw [hre] at hre1
  injection hre1 with hre1
  subst hre1
  obtain ⟨es2, db2, hre2, hdel, hs2, hmem2⟩ := stDelete_some M r db1 h1 h2 hs1
  rw [hre] at hre2
  injection hre2 with hre2
  subst hre2
  refine ⟨db1, db2, hput, hdel, ?_⟩
  apply sorted_ext db2 db hs2 hs
  intro kv
  rw [hmem2 kv, hmem1 kv]
  constructor
  · rintro ⟨h3 | ⟨h3, h4⟩, h5⟩
    · exact absurd (List.mem_map.mpr ⟨kv, h3, rfl⟩) h5
    · exact h3
  · intro h3
    have h4 : kv.1 ∉ es.map Prod.fst := by
      intro h5
      exact hfresh kv.1 h5 (List.mem_map.mpr ⟨kv, h3, rfl⟩)
    exact ⟨Or.inr ⟨h3, h4⟩, h4⟩

/-- Atomicity of `put` and `delete`: all staged entries land, or on a failed
commit nothing changes. -/
theorem put_delete_atomic_core (M : Nat) (r : IRec)
    (db : List (List Nat × List Nat)) (h1 : r.s ≤ r.e) (h2 : r.e ≤ M)
    (hM : M < 256 ^ 8) (hs : DBS db) :
    ∃ es, recEntries M r = some es ∧
      stPutA M false db r.owner r.s r.e r.lvl = some db ∧
      (∃ db1, stPutA M true db r.owner r.s r.e r.lvl = some db1 ∧
        stPut M db r.owner r.s r.e r.lvl = some db1 ∧ ∀ kv ∈ es, kv ∈ db1) ∧
      stDeleteA M false db r.owner r.s r.e r.lvl = some db ∧
      (∃ db2, stDeleteA M true db r.owner r.s r.e r.lvl = some db2 ∧
        stDelete M db r.owner r.s r.e r.lvl = some db2 ∧
        ∀ kv ∈ es, kv.1 ∉ db2.map Prod.fst) := by
  obtain ⟨es, db1, hre, hput, hs1, hmem1⟩ := stPut_some M r db h1 h2 hM hs
  obtain ⟨es2, db2, hre2, hdel, hs2, hmem2⟩ := stDelete_some M r db h1 h2 hs
  rw [hre] at hre2
  injection hre2 with hre2
  subst hre2
  refine ⟨es, hre, ?_, ⟨db1, ?_, hput, ?_⟩, ?_, ⟨db2, ?_, hdel, ?_⟩⟩
  · rw [stPutA, show (⟨r.owner, r.s, r.e, r.lvl⟩ : IRec) = r from rfl, hre]
    rfl
  · rw [stPutA, show (⟨r.owner, r.s, r.e, r.lvl⟩ : IRec) = r from rfl, hre]
    rw [stPut, show (⟨r.owner, r.s, r.e, r.lvl⟩ : IRec) = r from rfl, hre] at hput
    simpa using hput
  · intro kv hkv
    exact (hmem1 kv).mpr (Or.inl hkv)
  · rw [stDeleteA, show (⟨r.owner, r.s, r.e, r.lvl⟩ : IRec) = r from rfl, hre]
    rfl
  · rw [stDeleteA, show (⟨r.owner, r.s, r.e, r.lvl⟩ : IRec) = r from rfl, hre]
    rw [stDelete, show (⟨r.owner, r.s, r.e, r.lvl⟩ : IRec) = r from rfl, hre] at hdel
    simpa using hdel
  · intro kv hkv hk
    obtain ⟨kv2, hkv2, hkv2e⟩ := List.mem_map.mp hk
    have := ((hmem2 kv2).mp hkv2).2
    exact this (hkv2e ▸ List.mem_map.mpr ⟨kv, hkv, rfl⟩)

theorem maxEndpoint_pos (epsize : Nat) : 1 ≤ maxEndpoint epsize :=
  Nat.one_le_two_pow

theorem maxEndpoint_lt (epsize : Nat) (hE : epsize ≤ 63) :
    maxEndpoint epsize < 256 ^ 8 := by
  have : (256 : Nat) ^ 8 = 2 ^ 64 := by norm_num
  rw [this, maxEndpoint]
  exact Nat.pow_lt_pow_right (by norm_num) (by omega)

/-- The empty store with no live records satisfies the reachability
invariant. -/
theorem InvDB_empty (M : Nat) : InvDB M [] [] := by
  refine ⟨List.Pairwise.nil, ?_, List.Pairwise.nil, ?_⟩
  · intro r hr
    exact absurd hr (List.not_mem_nil r)
  · intro kv
    constructor
    · intro h
      exact absurd h (List.not_mem_nil kv)
    · rintro ⟨r, hr, _⟩
      exact absurd hr (List.not_mem_nil r)

/-- With `start > end` (and `start ≤ max_endpoint`) the decomposition
returns no nodes at all. -/
theorem splitF_empty (M s e : Nat) (hsM : s ≤ M) (hes : e < s) :
    splitF (M + 1) s e 0 M = some [] := by
  obtain ⟨L, heq, hmem, _, _⟩ := splitF_spec (M + 1) s e 0 M hsM
    (Nat.zero_le e) (Nat.zero_le M) (by omega)
  cases L with
  | nil => exact heq
  | cons p t =>
    obtain ⟨c1, c2, _, c4, _, _⟩ := hmem p (List.mem_cons_self p t)
    omega

theorem qe_filter_flags (M : Nat) (db : List (List Nat × List Nat))
    (L : List IRec) (hInv : InvDB M db L) (a b : Nat)
    (iS iE iS2 iE2 : Bool) :
    (db.map Prod.fst).filter (inIterRange (epKeyP a) (epKeyL b (MAX_LEVEL + 1)) iS iE) =
    (db.map Prod.fst).filter (inIterRange (epKeyP a) (epKeyL b (MAX_LEVEL + 1)) iS2 iE2) := by
  apply List.filter_congr
  intro k hk
  obtain ⟨h1, h2⟩ := db_key_not_bound M db L hInv k hk a b (MAX_LEVEL + 1)
  rw [inIterRange_of_ne _ _ _ iS iE h1 h2, inIterRange_of_ne _ _ _ iS2 iE2 h1 h2]

theorem segKey_reassoc (l u lvl : Nat) (o : List Nat) :
    segKey l u lvl o = 1 :: (beBytes 8 l ++ (beBytes 8 u ++ (lvl :: o))) := by
  simp [segKey, segKeyL, segKeyP]

theorem epKey_reassoc (v lvl kind : Nat) (o : List Nat) :
    epKey v lvl kind o = 2 :: (beBytes 8 v ++ (lvl :: kind :: o)) := by
  simp [epKey, epKeyL, epKeyP]

/-- Byte order of full segment keys equals lexicographic order of the
decoded `(lower, upper, level, owner)` tuples. -/
theorem segKey_order (l u lvl l2 u2 lvl2 : Nat) (o o2 : List Nat)
    (hl : l < 256 ^ 8) (hu : u < 256 ^ 8) (hl2 : l2 < 256 ^ 8)
    (hu2 : u2 < 256 ^ 8) :
    (byteLtB (segKey l u lvl o) (segKey l2 u2 lvl2 o2) = true ↔
      (l < l2 ∨ (l = l2 ∧ (u < u2 ∨ (u = u2 ∧
        (lvl < lvl2 ∨ (lvl = lvl2 ∧ byteLtB o o2 = true))))))) := by
  rw [segKey_reassoc, segKey_reassoc, byteLtB_cons_iff]
  have h1 : ¬(1 : Nat) < 1 := by omega
  rw [byteLtB_append_iff _ _ _ _ (by rw [beBytes_length, beBytes_length])]
  rw [byteLtB_append_iff _ _ _ _ (by rw [beBytes_length, beBytes_length])]
  rw [beBytes_lt 8 l l2 hl hl2, beBytes_inj 8 l l2 hl hl2,
    beBytes_lt 8 u u2 hu hu2, beBytes_inj 8 u u2 hu hu2, byteLtB_cons_iff]
  constructor
  · rintro (h | ⟨_, h⟩)
    · omega
    · exact h
  · intro h
    exact Or.inr ⟨rfl, h⟩

/-- Byte order of full endpoint keys equals lexicographic order of the
decoded `(value, level, kind, owner)` tuples. -/
theorem epKey_order (v lvl kind v2 lvl2 kind2 : Nat) (o o2 : List Nat)
    (hv : v < 256 ^ 8) (hv2 : v2 < 256 ^ 8) :
    (byteLtB (epKey v lvl kind o) (epKey v2 lvl2 kind2 o2) = true ↔
      (v < v2 ∨ (v = v2 ∧ (lvl < lvl2 ∨ (lvl = lvl2 ∧
        (kind < kind2 ∨ (kind = kind2 ∧ byteLtB o o2 = true))))))) := by
  rw [epKey_reassoc, epKey_reassoc, byteLtB_cons_iff]
  rw [byteLtB_append_iff _ _ _ _ (by rw [beBytes_length, beBytes_length])]
  rw [beBytes_lt 8 v v2 hv hv2, beBytes_inj 8 v v2 hv hv2, byteLtB_cons_iff,
    byteLtB_cons_iff]
  constructor
  · rintro (h | ⟨_, h⟩)
    · omega
    · exact h
  · intro h
    exact Or.inr ⟨rfl, h⟩

/-- C2: for every `0 ≤ start ≤ end ≤ max_endpoint`, the pairs returned by
`_split_interval(start, end, 0, max_endpoint)` are pairwise-disjoint aligned
canonical nodes whose union is exactly the set of integers in
`[start, end]`, and no strictly smaller set of aligned canonical nodes has
that union. -/
theorem claim2_decomposition (epsize s e : Nat) (hse : s ≤ e)
    (heM : e ≤ maxEndpoint epsize) :
    ∃ si, splitF (maxEndpoint epsize + 1) s e 0 (maxEndpoint epsize) = some si ∧
      (∀ p ∈ si, Canon (maxEndpoint epsize) p) ∧
      si.Pairwise (fun p q => p.2 < q.1) ∧
      (∀ x : Nat, (∃ p ∈ si, p.1 ≤ x ∧ x ≤ p.2) ↔ s ≤ x ∧ x ≤ e) ∧
      (∀ S : Finset (Nat × Nat), (∀ p ∈ S, Canon (maxEndpoint epsize) p) →
        (∀ x : Nat, (∃ p ∈ S, p.1 ≤ x ∧ x ≤ p.2) ↔ s ≤ x ∧ x ≤ e) →
        si.length ≤ S.card) := by
  obtain ⟨si, heq, hmem, huni, hpw⟩ :=
    splitF_spec (maxEndpoint epsize + 1) s e 0 (maxEndpoint epsize)
      (by omega) (by omega) (by omega) (by omega)
  refine ⟨si, heq, fun p hp => (hmem p hp).2.2.2.2.2, hpw, ?_, ?_⟩
  · intro x
    rw [huni x]
    omega
  · intro S hc hcov
    exact split_minimal (maxEndpoint epsize) s e hse heM si heq S hc hcov

/-- C3 (amended): `put` performs no validation and never raises
`OutOfRange`: with `start > end` (and `start ≤ max_endpoint`) the call
succeeds, stages no segment entries, yet still writes both boundary
markers, changing the store. -/
theorem claim3_no_validation (epsize : Nat) (db : List (List Nat × List Nat))
    (hs : DBS db) (o : List Nat) (lvl s e : Nat)
    (hsM : s ≤ maxEndpoint epsize) (hes : e < s) :
    ∃ db2, stPut (maxEndpoint epsize) db o s e lvl = some db2 ∧ DBS db2 ∧
      (epKey s lvl TYPE_START o, ([0] : List Nat)) ∈ db2 ∧
      (epKey e lvl TYPE_END o, ([0] : List Nat)) ∈ db2 ∧
      ∀ kv ∈ db2, kv ∈ db ∨ kv = (epKey s lvl TYPE_START o, ([0] : List Nat)) ∨
        kv = (epKey e lvl TYPE_END o, ([0] : List Nat)) := by
  have hsplit := splitF_empty (maxEndpoint epsize) s e hsM hes
  have hre : recEntries (maxEndpoint epsize) ⟨o, s, e, lvl⟩ =
      some [startEntry ⟨o, s, e, lvl⟩, endEntry ⟨o, s, e, lvl⟩] := by
    rw [recEntries, hsplit]
    rfl
  have hnd : (([startEntry ⟨o, s, e, lvl⟩, endEntry ⟨o, s, e, lvl⟩] :
      List (List Nat × List Nat)).map Prod.fst).Nodup := by
    simp only [List.map_cons, List.map_nil, List.nodup_cons, List.mem_cons,
      List.not_mem_nil, or_false, List.nodup_nil, and_true, startEntry, endEntry]
    refine ⟨?_, not_false⟩
    intro hk
    rcases epKey_eq_owner_level _ _ _ _ _ _ _ _ hk with ⟨_, _, hkind⟩
    simp [TYPE_START, TYPE_END] at hkind
  obtain ⟨hs2, hmem⟩ :=
    applyPuts_mem [startEntry ⟨o, s, e, lvl⟩, endEntry ⟨o, s, e, lvl⟩] db hs hnd
  refine ⟨_, by rw [stPut, hre]; rfl, hs2, ?_, ?_, ?_⟩
  · exact (hmem _).mpr (Or.inl (List.mem_cons_self _ _))
  · exact (hmem _).mpr (Or.inl (List.mem_cons_of_mem _ (List.mem_cons_self _ _)))
  · intro kv hkv
    rcases (hmem kv).mp hkv with h | ⟨h, _⟩
    · rcases List.mem_cons.mp h with h3 | h3
      · exact Or.inr (Or.inl h3)
      · simp only [List.mem_cons, List.not_mem_nil, or_false] at h3
        exact Or.inr (Or.inr h3)
    · exact Or.inl h

/-- C4: the segment-key and endpoint-key encodings are injective on their
decoded tuples, and byte-lexicographic comparison of two same-kind keys
matches lexicographic comparison of the decoded numeric tuples. -/
theorem claim4_key_codec (l u lvl l2 u2 lvl2 v kind v2 kind2 : Nat)
    (o o2 : List Nat)
    (hl : l < 2 ^ 64) (hu : u < 2 ^ 64) (hl2 : l2 < 2 ^ 64) (hu2 : u2 < 2 ^ 64)
    (hv : v < 2 ^ 64) (hv2 : v2 < 2 ^ 64) :
    (segKey l u lvl o = segKey l2 u2 lvl2 o2 ↔
      (l = l2 ∧ u = u2 ∧ lvl = lvl2 ∧ o = o2)) ∧
    (byteLtB (segKey l u lvl o) (segKey l2 u2 lvl2 o2) = true ↔
      (l < l2 ∨ (l = l2 ∧ (u < u2 ∨ (u = u2 ∧
        (lvl < lvl2 ∨ (lvl = lvl2 ∧ byteLtB o o2 = true))))))) ∧
    (epKey v lvl kind o = epKey v2 lvl2 kind2 o2 ↔
      (v = v2 ∧ lvl = lvl2 ∧ kind = kind2 ∧ o = o2)) ∧
    (byteLtB (epKey v lvl kind o) (epKey v2 lvl2 kind2 o2) = true ↔
      (v < v2 ∨ (v = v2 ∧ (lvl < lvl2 ∨ (lvl = lvl2 ∧
        (kind < kind2 ∨ (kind = kind2 ∧ byteLtB o o2 = true))))))) := by
  have h64 : (2 : Nat) ^ 64 = 256 ^ 8 := by norm_num
  rw [h64] at hl hu hl2 hu2 hv hv2
  refine ⟨?_, segKey_order l u lvl l2 u2 lvl2 o o2 hl hu hl2 hu2, ?_,
    epKey_order v lvl kind v2 lvl2 kind2 o o2 hv hv2⟩
  · constructor
    · intro h
      exact segKey_inj_full l u lvl l2 u2 lvl2 o o2 hl hu hl2 hu2 h
    · rintro ⟨rfl, rfl, rfl, rfl⟩
      rfl
  · constructor
    · intro h
      exact epKey_inj_full v lvl kind v2 lvl2 kind2 o o2 hv hv2 h
    · rintro ⟨rfl, rfl, rfl, rfl⟩
      rfl

/-- C5: every `put` stages all its segment entries and both boundary markers
into a single batch committed atomically: on success all of them are in the
store, and a failed commit leaves the store exactly unchanged; likewise
`delete` removes all its staged keys or none. -/
theorem claim5_atomic (epsize : Nat) (hE : epsize ≤ 63)
    (db : List (List Nat × List Nat)) (hs : DBS db) (o : List Nat)
    (s e lvl : Nat) (h1 : s ≤ e) (h2 : e ≤ maxEndpoint epsize) :
    ∃ es, recEntries (maxEndpoint epsize) ⟨o, s, e, lvl⟩ = some es ∧
      stPutA (maxEndpoint epsize) false db o s e lvl = some db ∧
      (∃ db1, stPutA (maxEndpoint epsize) true db o s e lvl = some db1 ∧
        stPut (maxEndpoint epsize) db o s e lvl = some db1 ∧
        ∀ kv ∈ es, kv ∈ db1) ∧
      stDeleteA (maxEndpoint epsize) false db o s e lvl = some db ∧
      (∃ db2, stDeleteA (maxEndpoint epsize) true db o s e lvl = some db2 ∧
        stDelete (maxEndpoint epsize) db o s e lvl = some db2 ∧
        ∀ kv ∈ es, kv.1 ∉ db2.map Prod.fst) :=
  put_delete_atomic_core (maxEndpoint epsize) ⟨o, s, e, lvl⟩ db h1 h2
    (maxEndpoint_lt epsize hE) hs

/-- C6 (amended): on a store containing none of the record's staged keys,
`put` immediately followed by `delete` of the identical tuple restores the
exact store, in particular its key set. -/
theorem claim6_roundtrip (epsize : Nat) (hE : epsize ≤ 63)
    (db : List (List Nat × List Nat)) (hs : DBS db) (o : List Nat)
    (s e lvl : Nat) (h1 : s ≤ e) (h2 : e ≤ maxEndpoint epsize)
    (es : List (List Nat × List Nat))
    (hre : recEntries (maxEndpoint epsize) ⟨o, s, e, lvl⟩ = some es)
    (hfresh : ∀ k ∈ es.map Prod.fst, k ∉ db.map Prod.fst) :
    ∃ db1 db2, stPut (maxEndpoint epsize) db o s e lvl = some db1 ∧
      stDelete (maxEndpoint epsize) db1 o s e lvl = some db2 ∧
      db2 = db ∧ db2.map Prod.fst = db.map Prod.fst := by
  obtain ⟨db1, db2, hput, hdel, heq⟩ :=
    put_delete_roundtrip_core (maxEndpoint epsize) ⟨o, s, e, lvl⟩ db h1 h2
      (maxEndpoint_lt epsize hE) hs es hre hfresh
  exact ⟨db1, db2, hput, hdel, heq, by rw [heq]⟩

/-- C8 (amended): the sentinel level `MAX_LEVEL + 1 = 255` is accepted by
`put` and `delete` without any validation; `put` persists records carrying
level 255. -/
theorem claim8_sentinel (epsize : Nat) (hE : epsize ≤ 63)
    (db : List (List Nat × List Nat)) (hs : DBS db) (o : List Nat)
    (s e : Nat) (h1 : s ≤ e) (h2 : e ≤ maxEndpoint epsize) :
    (∃ db2, stPut (maxEndpoint epsize) db o s e (MAX_LEVEL + 1) = some db2 ∧
      (epKey s (MAX_LEVEL + 1) TYPE_START o, ([0] : List Nat)) ∈ db2) ∧
    (∃ db3, stDelete (maxEndpoint epsize) db o s e (MAX_LEVEL + 1) = some db3) := by
  obtain ⟨es, db2, hre, hput, _, hmem⟩ :=
    stPut_some (maxEndpoint epsize) ⟨o, s, e, MAX_LEVEL + 1⟩ db h1 h2
      (maxEndpoint_lt epsize hE) hs
  obtain ⟨si, _, hes⟩ := recEntries_eq _ _ _ hre
  obtain ⟨es3, db3, _, hdel, _, _⟩ :=
    stDelete_some (maxEndpoint epsize) ⟨o, s, e, MAX_LEVEL + 1⟩ db h1 h2 hs
  refine ⟨⟨db2, hput, ?_⟩, ⟨db3, hdel⟩⟩
  apply (hmem _).mpr
  left
  rw [hes]
  exact List.mem_append.mpr (Or.inr (List.mem_cons_self _ _))

/-- C9: for `0 ≤ start ≤ end ≤ max_endpoint` the recursion of
`_split_interval(start, end, 0, max_endpoint)` terminates; outside the
precondition it can recurse forever, e.g. `start = end = 6` over
`max_endpoint = 4` never reaches the base case at any fuel. -/
theorem claim9_termination :
    (∀ (epsize s e : Nat), s ≤ e → e ≤ maxEndpoint epsize →
      (splitF (maxEndpoint epsize + 1) s e 0 (maxEndpoint epsize)).isSome = true) ∧
    (∀ f : Nat, splitF f 6 6 0 (maxEndpoint 2) = none) := by
  constructor
  · intro epsize s e hse heM
    obtain ⟨L, heq, _, _, _⟩ :=
      splitF_spec (maxEndpoint epsize + 1) s e 0 (maxEndpoint epsize)
        (by omega) (by omega) (by omega) (by omega)
    rw [heq]
    rfl
  · intro f
    exact splitF_loop_0_4 f

/-- C1 (amended): on every store reachable by a well-formed history of valid
`put`/`delete` calls (each `delete` names a live tuple, live records have
pairwise-distinct `(owner, level)`), `cover(p)` for `p ≤ max_endpoint`
yields `(owner, level, start, end)` iff a live record with exactly those
fields satisfies `start ≤ p ≤ end`, and yields no tuple more than once. -/
theorem claim1_cover_stabbing (epsize : Nat) (hE : epsize ≤ 63) (ops : List HOp)
    (hwf : wfHistB (maxEndpoint epsize) ops = true)
    (db : List (List Nat × List Nat))
    (hdb : runHist (maxEndpoint epsize) [] ops = some db) (p : Nat)
    (hp : p ≤ maxEndpoint epsize) :
    (∀ (o : List Nat) (lvl s e : Nat),
      (((o, lvl, s, e) : List Nat × Nat × Nat × Nat) ∈
          cover (maxEndpoint epsize) db p ↔
        ∃ r ∈ liveList ops, r.owner = o ∧ r.lvl = lvl ∧ r.s = s ∧ r.e = e ∧
          s ≤ p ∧ p ≤ e)) ∧
    (cover (maxEndpoint epsize) db p).Nodup := by
  have hM := maxEndpoint_lt epsize hE
  have hM1 := maxEndpoint_pos epsize
  obtain ⟨db2, hrun, hinv⟩ := runHist_inv (maxEndpoint epsize) hM ops [] []
    (InvDB_empty _) hwf
  rw [hdb] at hrun
  injection hrun with hrun
  subst hrun
  obtain ⟨hiff, hnd⟩ := cover_iff (maxEndpoint epsize) hM1 hM db
    (liveFrom [] ops) hinv p hp
  refine ⟨?_, hnd⟩
  intro o lvl s e
  rw [hiff (o, lvl, s, e)]
  show (∃ r ∈ liveFrom [] ops, _) ↔ ∃ r ∈ liveList ops, _
  rw [show liveList ops = liveFrom [] ops from rfl]
  constructor
  · rintro ⟨r, hr, ht, h1, h2⟩
    rw [Prod.mk.injEq, Prod.mk.injEq, Prod.mk.injEq] at ht
    exact ⟨r, hr, ht.1.symm, ht.2.1.symm, ht.2.2.1.symm, ht.2.2.2.symm,
      by omega, by omega⟩
  · rintro ⟨r, hr, ho, hl, hs2, he2, h1, h2⟩
    subst ho; subst hl; subst hs2; subst he2
    exact ⟨r, hr, rfl, h1, h2⟩

/-- C7 (amended): on every store reachable by a well-formed history,
`query_endpoints()` yields markers in non-decreasing order of value
(non-increasing with `reverse=True`), and for every live record the default
full scan contains both its START marker at `start` and its END marker at
`end`. -/
theorem claim7_endpoints (epsize : Nat) (hE : epsize ≤ 63) (ops : List HOp)
    (hwf : wfHistB (maxEndpoint epsize) ops = true)
    (db : List (List Nat × List Nat))
    (hdb : runHist (maxEndpoint epsize) [] ops = some db) :
    List.Pairwise (fun a b => a.1 ≤ b.1)
      (queryEndpoints (maxEndpoint epsize) db none none false true true) ∧
    List.Pairwise (fun a b => b.1 ≤ a.1)
      (queryEndpoints (maxEndpoint epsize) db none none true true true) ∧
    ∀ r ∈ liveList ops,
      ((r.s, r.lvl, true, r.owner) : Nat × Nat × Bool × List Nat) ∈
        queryEndpoints (maxEndpoint epsize) db none none false true true ∧
      ((r.e, r.lvl, false, r.owner) : Nat × Nat × Bool × List Nat) ∈
        queryEndpoints (maxEndpoint epsize) db none none false true true := by
  have hM := maxEndpoint_lt epsize hE
  obtain ⟨db2, hrun, hinv⟩ := runHist_inv (maxEndpoint epsize) hM ops [] []
    (InvDB_empty _) hwf
  rw [hdb] at hrun
  injection hrun with hrun
  subst hrun
  have hord := queryEndpoints_ordered (maxEndpoint epsize) hM db
    (liveFrom [] ops) hinv 0 (maxEndpoint epsize) (MAX_LEVEL + 1) true true
  refine ⟨?_, ?_, ?_⟩
  · show List.Pairwise _ (((db.map Prod.fst).filter
      (inIterRange (epKeyP 0) (epKeyL (maxEndpoint epsize) (MAX_LEVEL + 1))
        true true)).map decodeEp)
    rw [List.pairwise_map]
    exact hord
  · show List.Pairwise _ ((((db.map Prod.fst).filter
      (inIterRange (epKeyP 0) (epKeyL (maxEndpoint epsize) (MAX_LEVEL + 1))
        true true)).reverse).map decodeEp)
    rw [List.pairwise_map, List.pairwise_reverse]
    exact hord
  · intro r hr
    rw [show liveList ops = liveFrom [] ops from rfl] at hr
    obtain ⟨_, hvalid, _, hagree⟩ := hinv
    obtain ⟨hv1, hv2, hv3⟩ := hvalid r hr
    obtain ⟨si, hsi, hre, _, _, _⟩ :=
      recEntries_of_valid (maxEndpoint epsize) r hv1 hv2
    constructor
    · apply (queryEndpoints_mem (maxEndpoint epsize) db none none false true true
        _).mpr
      refine ⟨epKey r.s r.lvl TYPE_START r.owner, ?_, ?_, ?_⟩
      · apply List.mem_map.mpr
        refine ⟨startEntry r, ?_, rfl⟩
        apply (hagree (startEntry r)).mpr
        exact ⟨r, hr, _, hre, List.mem_append.mpr
          (Or.inr (List.mem_cons_self _ _))⟩
      · exact marker_inIter 0 (maxEndpoint epsize) r.s r.lvl TYPE_START r.owner
          (by norm_num) hM (by omega) hv3 (by omega) (by omega) true true
      · rw [decodeEp_epKey r.s r.lvl TYPE_START r.owner (by omega)]
        rfl
    · apply (queryEndpoints_mem (maxEndpoint epsize) db none none false true true
        _).mpr
      refine ⟨epKey r.e r.lvl TYPE_END r.owner, ?_, ?_, ?_⟩
      · apply List.mem_map.mpr
        refine ⟨endEntry r, ?_, rfl⟩
        apply (hagree (endEntry r)).mpr
        exact ⟨r, hr, _, hre, List.mem_append.mpr
          (Or.inr (List.mem_cons_of_mem _ (List.mem_cons_self _ _)))⟩
      · exact marker_inIter 0 (maxEndpoint epsize) r.e r.lvl TYPE_END r.owner
          (by norm_num) hM (by omega) hv3 (by omega) (by omega) true true
      · rw [decodeEp_epKey r.e r.lvl TYPE_END r.owner (by omega)]
        rfl

theorem qe_flags_core (M : Nat) (db : List (List Nat × List Nat))
    (L : List IRec) (hInv : InvDB M db L) (a b : Nat)
    (rev iS iE iS2 iE2 : Bool) :
    ((if rev then ((db.map Prod.fst).filter
        (inIterRange (epKeyP a) (epKeyL b (MAX_LEVEL + 1)) iS iE)).reverse
      else (db.map Prod.fst).filter
        (inIterRange (epKeyP a) (epKeyL b (MAX_LEVEL + 1)) iS iE)).map decodeEp) =
    ((if rev then ((db.map Prod.fst).filter
        (inIterRange (epKeyP a) (epKeyL b (MAX_LEVEL + 1)) iS2 iE2)).reverse
      else (db.map Prod.fst).filter
        (inIterRange (epKeyP a) (epKeyL b (MAX_LEVEL + 1)) iS2 iE2)).map decodeEp) := by
  rw [qe_filter_flags M db L hInv a b iS iE iS2 iE2]

/-- Counterexample to C1 as stated: two puts with valid arguments whose
decompositions share the leaf node `(1,1)` under the same `(owner, level)`
overwrite each other's segment entry, so `cover(1)` misses the live record
`([7], 1, 2, 0)` that contains 1. -/
theorem claim1_cex :
    validB (maxEndpoint 2) ⟨[7], 1, 2, 0⟩ = true ∧
    validB (maxEndpoint 2) ⟨[7], 1, 1, 0⟩ = true ∧
    runHist (maxEndpoint 2) [] [HOp.hput ⟨[7], 1, 2, 0⟩, HOp.hput ⟨[7], 1, 1, 0⟩] =
      some ((runHist (maxEndpoint 2) []
        [HOp.hput ⟨[7], 1, 2, 0⟩, HOp.hput ⟨[7], 1, 1, 0⟩]).getD []) ∧
    (⟨[7], 1, 2, 0⟩ : IRec) ∈
      liveList [HOp.hput ⟨[7], 1, 2, 0⟩, HOp.hput ⟨[7], 1, 1, 0⟩] ∧
    (1 : Nat) ≤ 2 ∧
    (([7], 0, 1, 2) : List Nat × Nat × Nat × Nat) ∉
      cover (maxEndpoint 2) ((runHist (maxEndpoint 2) []
        [HOp.hput ⟨[7], 1, 2, 0⟩, HOp.hput ⟨[7], 1, 1, 0⟩]).getD []) 1 := by
  refine ⟨rfl, rfl, rfl, ?_, ?_, ?_⟩ <;> decide

/-- Counterexample to C3 as stated: `put` with `start = 2 > 1 = end` does
not fail with `OutOfRange`; it succeeds and changes the store. -/
theorem claim3_cex :
    stPut (maxEndpoint 2) [] [7] 2 1 0 =
      some ((stPut (maxEndpoint 2) [] [7] 2 1 0).getD []) ∧
    (stPut (maxEndpoint 2) [] [7] 2 1 0).getD [] ≠ [] := by
  exact ⟨rfl, by decide⟩

/-- Counterexample to C6 as stated: when the identical tuple is already
live, put-then-delete removes the pre-existing entries, shrinking the key
set. -/
theorem claim6_cex :
    validB (maxEndpoint 2) ⟨[7], 1, 1, 0⟩ = true ∧
    ((stDelete (maxEndpoint 2)
      ((stPut (maxEndpoint 2) ((stPut (maxEndpoint 2) [] [7] 1 1 0).getD [])
        [7] 1 1 0).getD []) [7] 1 1 0).getD []).map Prod.fst ≠
      (((stPut (maxEndpoint 2) [] [7] 1 1 0).getD []).map Prod.fst) := by
  exact ⟨rfl, by decide⟩

/-- Counterexample to C7 as stated: a `delete` with valid arguments but a
never-inserted tuple removes the START marker of the still-live record
`([7], 0, 2, 0)`, so the default scan lacks its START marker. -/
theorem claim7_cex :
    validB (maxEndpoint 2) ⟨[7], 0, 2, 0⟩ = true ∧
    validB (maxEndpoint 2) ⟨[7], 0, 1, 0⟩ = true ∧
    runHist (maxEndpoint 2) [] [HOp.hput ⟨[7], 0, 2, 0⟩, HOp.hdel ⟨[7], 0, 1, 0⟩] =
      some ((runHist (maxEndpoint 2) []
        [HOp.hput ⟨[7], 0, 2, 0⟩, HOp.hdel ⟨[7], 0, 1, 0⟩]).getD []) ∧
    (⟨[7], 0, 2, 0⟩ : IRec) ∈
      liveList [HOp.hput ⟨[7], 0, 2, 0⟩, HOp.hdel ⟨[7], 0, 1, 0⟩] ∧
    ((0, 0, true, [7]) : Nat × Nat × Bool × List Nat) ∉
      queryEndpoints (maxEndpoint 2) ((runHist (maxEndpoint 2) []
        [HOp.hput ⟨[7], 0, 2, 0⟩, HOp.hdel ⟨[7], 0, 1, 0⟩]).getD [])
        none none false true true := by
  refine ⟨rfl, rfl, rfl, ?_, ?_⟩ <;> decide

/-- Counterexample to C8 as stated: `put` accepts the sentinel level 255
and persists a record carrying it; `delete` accepts it too. -/
theorem claim8_cex :
    stPut (maxEndpoint 2) [] [7] 1 1 (MAX_LEVEL + 1) =
      some ((stPut (maxEndpoint 2) [] [7] 1 1 (MAX_LEVEL + 1)).getD []) ∧
    (epKey 1 (MAX_LEVEL + 1) TYPE_START [7], ([0] : List Nat)) ∈
      (stPut (maxEndpoint 2) [] [7] 1 1 (MAX_LEVEL + 1)).getD [] ∧
    (stDelete (maxEndpoint 2) [] [7] 1 1 (MAX_LEVEL + 1)).isSome = true := by
  refine ⟨rfl, ?_, rfl⟩
  decide

/-- Witness for C1 at a concrete well-formed history. -/
theorem claim1_witness :
    (2 ≤ 63) ∧
    wfHistB (maxEndpoint 2) [HOp.hput ⟨[7], 1, 2, 0⟩] = true ∧
    runHist (maxEndpoint 2) [] [HOp.hput ⟨[7], 1, 2, 0⟩] =
      some ((runHist (maxEndpoint 2) [] [HOp.hput ⟨[7], 1, 2, 0⟩]).getD []) ∧
    (1 ≤ maxEndpoint 2) ∧
    (cover (maxEndpoint 2)
      ((runHist (maxEndpoint 2) [] [HOp.hput ⟨[7], 1, 2, 0⟩]).getD []) 1).Nodup :=
  ⟨by decide, rfl, rfl, by decide,
    (claim1_cover_stabbing 2 (by decide) [HOp.hput ⟨[7], 1, 2, 0⟩] rfl
      ((runHist (maxEndpoint 2) [] [HOp.hput ⟨[7], 1, 2, 0⟩]).getD []) rfl
      1 (by decide)).2⟩

/-- Witness for C2 at a concrete interval. -/
theorem claim2_witness :
    (1 ≤ 3) ∧ (3 ≤ maxEndpoint 2) ∧
    (∃ si, splitF (maxEndpoint 2 + 1) 1 3 0 (maxEndpoint 2) = some si ∧
      (∀ p ∈ si, Canon (maxEndpoint 2) p) ∧
      si.Pairwise (fun p q => p.2 < q.1) ∧
      (∀ x : Nat, (∃ p ∈ si, p.1 ≤ x ∧ x ≤ p.2) ↔ 1 ≤ x ∧ x ≤ 3) ∧
      (∀ S : Finset (Nat × Nat), (∀ p ∈ S, Canon (maxEndpoint 2) p) →
        (∀ x : Nat, (∃ p ∈ S, p.1 ≤ x ∧ x ≤ p.2) ↔ 1 ≤ x ∧ x ≤ 3) →
        si.length ≤ S.card)) :=
  ⟨by decide, by decide, claim2_decomposition 2 1 3 (by decide) (by decide)⟩

/-- Witness for C3 at a concrete invalid call. -/
theorem claim3_witness :
    DBS [] ∧ (2 ≤ maxEndpoint 2) ∧ (1 < 2) ∧
    (∃ db2, stPut (maxEndpoint 2) [] [7] 2 1 0 = some db2 ∧ DBS db2 ∧
      (epKey 2 0 TYPE_START [7], ([0] : List Nat)) ∈ db2 ∧
      (epKey 1 0 TYPE_END [7], ([0] : List Nat)) ∈ db2 ∧
      ∀ kv ∈ db2, kv ∈ ([] : List (List Nat × List Nat)) ∨
        kv = (epKey 2 0 TYPE_START [7], ([0] : List Nat)) ∨
        kv = (epKey 1 0 TYPE_END [7], ([0] : List Nat))) :=
  ⟨List.Pairwise.nil, by decide, by decide,
    claim3_no_validation 2 [] List.Pairwise.nil [7] 0 2 1 (by decide) (by decide)⟩

/-- Witness for C4 at concrete field values. -/
theorem claim4_witness :
    ((1 : Nat) < 2 ^ 64) ∧ ((2 : Nat) < 2 ^ 64) ∧ ((3 : Nat) < 2 ^ 64) ∧
    ((5 : Nat) < 2 ^ 64) ∧
    (segKey 1 2 7 [9] = segKey 1 3 0 [8] ↔
      ((1 : Nat) = 1 ∧ (2 : Nat) = 3 ∧ (7 : Nat) = 0 ∧ ([9] : List Nat) = [8])) :=
  ⟨by decide, by decide, by decide, by decide,
    (claim4_key_codec 1 2 7 1 3 0 5 0 5 1 [9] [8] (by decide) (by decide)
      (by decide) (by decide) (by decide) (by decide)).1⟩

/-- Witness for C5 at a concrete record and the empty store. -/
theorem claim5_witness :
    (2 ≤ 63) ∧ DBS [] ∧ ((1 : Nat) ≤ 2) ∧ (2 ≤ maxEndpoint 2) ∧
    (∃ es, recEntries (maxEndpoint 2) ⟨[7], 1, 2, 0⟩ = some es ∧
      stPutA (maxEndpoint 2) false [] [7] 1 2 0 = some [] ∧
      (∃ db1, stPutA (maxEndpoint 2) true [] [7] 1 2 0 = some db1 ∧
        stPut (maxEndpoint 2) [] [7] 1 2 0 = some db1 ∧
        ∀ kv ∈ es, kv ∈ db1) ∧
      stDeleteA (maxEndpoint 2) false [] [7] 1 2 0 = some [] ∧
      (∃ db2, stDeleteA (maxEndpoint 2) true [] [7] 1 2 0 = some db2 ∧
        stDelete (maxEndpoint 2) [] [7] 1 2 0 = some db2 ∧
        ∀ kv ∈ es, kv.1 ∉ db2.map Prod.fst)) :=
  ⟨by decide, List.Pairwise.nil, by decide, by decide,
    claim5_atomic 2 (by decide) [] List.Pairwise.nil [7] 1 2 0 (by decide)
      (by decide)⟩

/-- Witness for C6 at a concrete record and the empty store. -/
theorem claim6_witness :
    (2 ≤ 63) ∧ DBS [] ∧ ((1 : Nat) ≤ 2) ∧ (2 ≤ maxEndpoint 2) ∧
    recEntries (maxEndpoint 2) ⟨[7], 1, 2, 0⟩ =
      some ((recEntries (maxEndpoint 2) ⟨[7], 1, 2, 0⟩).getD []) ∧
    (∀ k ∈ ((recEntries (maxEndpoint 2) ⟨[7], 1, 2, 0⟩).getD []).map Prod.fst,
      k ∉ ([] : List (List Nat × List Nat)).map Prod.fst) ∧
    (∃ db1 db2, stPut (maxEndpoint 2) [] [7] 1 2 0 = some db1 ∧
      stDelete (maxEndpoint 2) db1 [7] 1 2 0 = some db2 ∧
      db2 = [] ∧ db2.map Prod.fst = ([] : List (List Nat × List Nat)).map Prod.fst) :=
  ⟨by decide, List.Pairwise.nil, by decide, by decide, rfl, by decide,
    claim6_roundtrip 2 (by decide) [] List.Pairwise.nil [7] 1 2 0 (by decide)
      (by decide) ((recEntries (maxEndpoint 2) ⟨[7], 1, 2, 0⟩).getD []) rfl
      (by decide)⟩

/-- Witness for C7 at a concrete well-formed history. -/
theorem claim7_witness :
    (2 ≤ 63) ∧
    wfHistB (maxEndpoint 2) [HOp.hput ⟨[7], 1, 2, 0⟩] = true ∧
    runHist (maxEndpoint 2) [] [HOp.hput ⟨[7], 1, 2, 0⟩] =
      some ((runHist (maxEndpoint 2) [] [HOp.hput ⟨[7], 1, 2, 0⟩]).getD []) ∧
    List.Pairwise (fun a b => a.1 ≤ b.1)
      (queryEndpoints (maxEndpoint 2)
        ((runHist (maxEndpoint 2) [] [HOp.hput ⟨[7], 1, 2, 0⟩]).getD [])
        none none false true true) :=
  ⟨by decide, rfl, rfl,
    (claim7_endpoints 2 (by decide) [HOp.hput ⟨[7], 1, 2, 0⟩] rfl
      ((runHist (maxEndpoint 2) [] [HOp.hput ⟨[7], 1, 2, 0⟩]).getD []) rfl).1⟩

/-- Witness for C8 at a concrete record and the empty store. -/
theorem claim8_witness :
    (2 ≤ 63) ∧ DBS [] ∧ ((1 : Nat) ≤ 2) ∧ (2 ≤ maxEndpoint 2) ∧
    ((∃ db2, stPut (maxEndpoint 2) [] [7] 1 2 (MAX_LEVEL + 1) = some db2 ∧
      (epKey 1 (MAX_LEVEL + 1) TYPE_START [7], ([0] : List Nat)) ∈ db2) ∧
    (∃ db3, stDelete (maxEndpoint 2) [] [7] 1 2 (MAX_LEVEL + 1) = some db3)) :=
  ⟨by decide, List.Pairwise.nil, by decide, by decide,
    claim8_sentinel 2 (by decide) [] List.Pairwise.nil [7] 1 2 (by decide)
      (by decide)⟩

/-- Witness for C9 at a concrete valid interval. -/
theorem claim9_witness :
    ((1 : Nat) ≤ 3) ∧ (3 ≤ maxEndpoint 2) ∧
    (splitF (maxEndpoint 2 + 1) 1 3 0 (maxEndpoint 2)).isSome = true :=
  ⟨by decide, by decide, claim9_termination.1 2 1 3 (by decide) (by decide)⟩

theorem dbPut_subset (k v : List Nat) :
    ∀ db kv, kv ∈ dbPut k v db → kv = (k, v) ∨ kv ∈ db := by
  intro db
  induction db with
  | nil =>
    intro kv h
    simp only [dbPut, List.mem_cons, List.not_mem_nil, or_false] at h
    exact Or.inl h
  | cons h2 rest ih =>
    obtain ⟨k2, v2⟩ := h2
    intro kv h
    simp only [dbPut] at h
    by_cases hlt : byteLtB k k2
    · rw [if_pos hlt] at h
      rcases List.mem_cons.mp h with h3 | h3
      · exact Or.inl h3
      · exact Or.inr h3
    · rw [if_neg hlt] at h
      by_cases heq : k = k2
      · rw [if_pos heq] at h
        rcases List.mem_cons.mp h with h3 | h3
        · exact Or.inl h3
        · exact Or.inr (List.mem_cons_of_mem _ h3)
      · rw [if_neg heq] at h
        rcases List.mem_cons.mp h with h3 | h3
        · exact Or.inr (h3 ▸ List.mem_cons_self _ _)
        · rcases ih kv h3 with h4 | h4
          · exact Or.inl h4
          · exact Or.inr (List.mem_cons_of_mem _ h4)

theorem applyBatch_subset : ∀ (ops : List BOp) (db : List (List Nat × List Nat))
    (kv : List Nat × List Nat), kv ∈ applyBatch db ops →
    kv ∈ db ∨ ∃ k v, BOp.bput k v ∈ ops ∧ kv = (k, v) := by
  intro ops
  induction ops with
  | nil =>
    intro db kv h
    exact Or.inl h
  | cons op t ih =>
    intro db kv h
    have hstep : applyBatch db (op :: t) = applyBatch (applyB db op) t := rfl
    rw [hstep] at h
    rcases ih (applyB db op) kv h with h2 | ⟨k, v, hk, hkv⟩
    · cases op with
      | bput k v =>
        rcases dbPut_subset k v db kv h2 with h3 | h3
        · exact Or.inr ⟨k, v, List.mem_cons_self _ _, h3⟩
        · exact Or.inl h3
      | bdel k =>
        exact Or.inl ((dbDel_sublist k db).mem h2)
    · exact Or.inr ⟨k, v, List.mem_cons_of_mem _ hk, hkv⟩

theorem applyBatch_sorted : ∀ (ops : List BOp) (db : List (List Nat × List Nat)),
    DBS db → DBS (applyBatch db ops) := by
  intro ops
  induction ops with
  | nil => intro db h; exact h
  | cons op t ih =>
    intro db h
    have hstep : applyBatch db (op :: t) = applyBatch (applyB db op) t := rfl
    rw [hstep]
    apply ih
    cases op with
    | bput k v => exact dbPut_sorted k v db h
    | bdel k => exact dbDel_sorted k db h

/-- Every store reachable by any sequence of terminating `put`/`delete`
calls is sorted and holds only full (at least 11-byte) keys. -/
theorem runHist_keys_long (M : Nat) : ∀ (ops : List HOp)
    (db db2 : List (List Nat × List Nat)), DBS db →
    (∀ kv ∈ db, 11 ≤ kv.1.length) → runHist M db ops = some db2 →
    DBS db2 ∧ ∀ kv ∈ db2, 11 ≤ kv.1.length := by
  intro ops
  induction ops with
  | nil =>
    intro db db2 hs hlong hrun
    injection hrun with hrun
    subst hrun
    exact ⟨hs, hlong⟩
  | cons op t ih =>
    intro db db2 hs hlong hrun
    cases op with
    | hput r =>
      simp only [runHist] at hrun
      cases hput : stPut M db r.owner r.s r.e r.lvl with
      | none => rw [hput] at hrun; exact absurd hrun (by simp)
      | some db1 =>
        rw [hput] at hrun
        rw [stPut] at hput
        cases hre : recEntries M ⟨r.owner, r.s, r.e, r.lvl⟩ with
        | none => rw [hre] at hput; exact absurd hput (by simp)
        | some es =>
          rw [hre] at hput
          simp only [Option.map_some', Option.some.injEq] at hput
          apply ih db1 db2 ?_ ?_ hrun
          · rw [← hput]
            exact applyBatch_sorted _ db hs
          · intro kv hkv
            rw [← hput] at hkv
            rcases applyBatch_subset _ db kv hkv with h | ⟨k, v, hk, hkv2⟩
            · exact hlong kv h
            · obtain ⟨si, _, hes⟩ := recEntries_eq M ⟨r.owner, r.s, r.e, r.lvl⟩
                es hre
              subst hes
              obtain ⟨kv2, hkv2m, hkv2e⟩ := List.mem_map.mp hk
              have hke : kv.1 = kv2.1 := by
                have h5 : BOp.bput kv2.1 kv2.2 = BOp.bput k v := hkv2e
                injection h5 with e1 e2
                rw [hkv2, e1]
              rw [hke]
              rcases List.mem_append.mp hkv2m with hm | hm
              · obtain ⟨pn, _, hpe⟩ := List.mem_map.mp hm
                rw [← hpe]
                simp only [segEntry]
                rw [segKey_length]
                omega
              · simp only [List.mem_cons, List.not_mem_nil, or_false] at hm
                rcases hm with hm | hm <;> rw [hm] <;>
                  simp only [startEntry, endEntry] <;> rw [epKey_length] <;> omega
    | hdel r =>
      simp only [runHist] at hrun
      cases hdel : stDelete M db r.owner r.s r.e r.lvl with
      | none => rw [hdel] at hrun; exact absurd hrun (by simp)
      | some db1 =>
        rw [hdel] at hrun
        rw [stDelete] at hdel
        cases hre : recEntries M ⟨r.owner, r.s, r.e, r.lvl⟩ with
        | none => rw [hre] at hdel; exact absurd hdel (by simp)
        | some es =>
          rw [hre] at hdel
          simp only [Option.map_some', Option.some.injEq] at hdel
          apply ih db1 db2 ?_ ?_ hrun
          · rw [← hdel]
            exact applyBatch_sorted _ db hs
          · intro kv hkv
            rw [← hdel] at hkv
            rcases applyBatch_subset _ db kv hkv with h | ⟨k, v, hk, _⟩
            · exact hlong kv h
            · obtain ⟨kv2, _, hkv2e⟩ := List.mem_map.mp hk
              exact absurd hkv2e (by simp)

theorem qe_filter_flags2 (db : List (List Nat × List Nat))
    (hlong : ∀ kv ∈ db, 11 ≤ kv.1.length) (a b c : Nat)
    (iS iE iS2 iE2 : Bool) :
    (db.map Prod.fst).filter (inIterRange (epKeyP a) (epKeyL b c) iS iE) =
    (db.map Prod.fst).filter (inIterRange (epKeyP a) (epKeyL b c) iS2 iE2) := by
  apply List.filter_congr
  intro k hk
  obtain ⟨kv, hkv, hke⟩ := List.mem_map.mp hk
  have hl : 11 ≤ k.length := by
    rw [← hke]
    exact hlong kv hkv
  have h1 : k ≠ epKeyP a := by
    intro he
    rw [he, epKeyP_length] at hl
    omega
  have h2 : k ≠ epKeyL b c := by
    intro he
    rw [he, epKeyL_length] at hl
    omega
  rw [inIterRange_of_ne _ _ _ iS iE h1 h2, inIterRange_of_ne _ _ _ iS2 iE2 h1 h2]

theorem qe_flags_core2 (db : List (List Nat × List Nat))
    (hlong : ∀ kv ∈ db, 11 ≤ kv.1.length) (a b : Nat)
    (rev iS iE iS2 iE2 : Bool) :
    ((if rev then ((db.map Prod.fst).filter
        (inIterRange (epKeyP a) (epKeyL b (MAX_LEVEL + 1)) iS iE)).reverse
      else (db.map Prod.fst).filter
        (inIterRange (epKeyP a) (epKeyL b (MAX_LEVEL + 1)) iS iE)).map decodeEp) =
    ((if rev then ((db.map Prod.fst).filter
        (inIterRange (epKeyP a) (epKeyL b (MAX_LEVEL + 1)) iS2 iE2)).reverse
      else (db.map Prod.fst).filter
        (inIterRange (epKeyP a) (epKeyL b (MAX_LEVEL + 1)) iS2 iE2)).map decodeEp) := by
  rw [qe_filter_flags2 db hlong a b (MAX_LEVEL + 1) iS iE iS2 iE2]

/-- C10: the scan bounds of `query_endpoints` (a bare 9-byte start prefix
and a 10-byte stop key carrying the sentinel level) are never byte-equal to
a real key of a reachable store, so the output is identical for every
combination of `include_start`/`include_stop`; markers present in the store
at the given start and stop values themselves (at any valid level, kind and
owner) are always included. -/
theorem claim10_flags (epsize : Nat) (ops : List HOp)
    (db : List (List Nat × List Nat))
    (hdb : runHist (maxEndpoint epsize) [] ops = some db) :
    (∀ (st sp : Option Nat) (rev iS iE iS2 iE2 : Bool),
      queryEndpoints (maxEndpoint epsize) db st sp rev iS iE =
      queryEndpoints (maxEndpoint epsize) db st sp rev iS2 iE2) ∧
    (∀ v w : Nat, v < 2 ^ 64 → w < 2 ^ 64 →
      ∀ kv ∈ db, ∀ (x lvl kind : Nat) (o : List Nat),
        kv.1 = epKey x lvl kind o → x < 2 ^ 64 → lvl ≤ MAX_LEVEL →
        v ≤ x → x ≤ w → ∀ (rev iS iE : Bool),
        decodeEp kv.1 ∈
          queryEndpoints (maxEndpoint epsize) db (some v) (some w) rev iS iE) := by
  obtain ⟨_, hlong⟩ := runHist_keys_long (maxEndpoint epsize) ops [] db
    List.Pairwise.nil (by intro kv h; exact absurd h (List.not_mem_nil kv)) hdb
  have h64 : (2 : Nat) ^ 64 = 256 ^ 8 := by norm_num
  constructor
  · intro st sp rev iS iE iS2 iE2
    cases st with
    | none =>
      cases sp with
      | none => exact qe_flags_core2 db hlong 0 (maxEndpoint epsize) rev iS iE iS2 iE2
      | some w => exact qe_flags_core2 db hlong 0 w rev iS iE iS2 iE2
    | some v =>
      cases sp with
      | none => exact qe_flags_core2 db hlong v (maxEndpoint epsize) rev iS iE iS2 iE2
      | some w => exact qe_flags_core2 db hlong v w rev iS iE iS2 iE2
  · intro v w hv hw kv hkv x lvl kind o hke hx hlvl h1 h2 rev iS iE
    rw [h64] at hv hw hx
    apply (queryEndpoints_mem (maxEndpoint epsize) db (some v) (some w)
      rev iS iE _).mpr
    refine ⟨kv.1, List.mem_map.mpr ⟨kv, hkv, rfl⟩, ?_, rfl⟩
    rw [hke]
    exact marker_inIter v w x lvl kind o hv hw hx hlvl h1 h2 iS iE

/-- Witness for C10 at a concrete history. -/
theorem claim10_witness :
    runHist (maxEndpoint 2) [] [HOp.hput ⟨[7], 1, 2, 0⟩] =
      some ((runHist (maxEndpoint 2) [] [HOp.hput ⟨[7], 1, 2, 0⟩]).getD []) ∧
    queryEndpoints (maxEndpoint 2)
      ((runHist (maxEndpoint 2) [] [HOp.hput ⟨[7], 1, 2, 0⟩]).getD [])
      none none false true false =
    queryEndpoints (maxEndpoint 2)
      ((runHist (maxEndpoint 2) [] [HOp.hput ⟨[7], 1, 2, 0⟩]).getD [])
      none none false false true :=
  ⟨rfl,
    (claim10_flags 2 [HOp.hput ⟨[7], 1, 2, 0⟩]
      ((runHist (maxEndpoint 2) [] [HOp.hput ⟨[7], 1, 2, 0⟩]).getD []) rfl).1
      none none false true false false true⟩
